import Mathlib

/-!
Verification of the multipart/form-data extraction core of the
AcquiSuite ingest worker (`src/index.js`).

Byte-level model: the body, the boundary and the field names are lists of
byte values (`List Nat`).  `TextEncoder.encode`/`TextDecoder.decode`
round-trips are modelled as the identity on byte sequences, which is exact
for ASCII data — and every literal pattern the code matches
(`name="…"`, `filename="…"`, `--boundary`, CRLF) is ASCII.
JavaScript's `-1` "not found" sentinel is modelled as `Option.none`.
Out-of-bounds `Uint8Array` reads (which yield `undefined` in JavaScript,
compared against concrete byte values) are modelled with `List.getD _ _ 0`
at the two call sites that read single bytes; the default `0` is never
equal to the bytes compared against (13, 10, 45), matching `undefined`.
-/

set_option maxRecDepth 100000

/-- Byte values of an ASCII string, as produced by `TextEncoder.encode`. -/
def ascii (s : String) : List Nat := s.data.map Char.toNat

/-- One inner-loop pass of `indexOfSubarray`/`lastIndexOfSubarray`:
does `needle` occur byte-for-byte at position `i` of `haystack`? -/
def matchesAt (haystack needle : List Nat) (i : Nat) : Bool :=
  (haystack.drop i).take needle.length == needle

/-- Propositional form of `matchesAt`: `needle` occurs at position `i`. -/
def occursAt (haystack needle : List Nat) (i : Nat) : Prop :=
  i + needle.length ≤ haystack.length ∧ (haystack.drop i).take needle.length = needle

instance (haystack needle : List Nat) (i : Nat) : Decidable (occursAt haystack needle i) := by
  unfold occursAt; infer_instance

/-- `needle` occurs somewhere in `l`. -/
def hasSub (l needle : List Nat) : Prop := ∃ q, occursAt l needle q

instance (l needle : List Nat) : Decidable (hasSub l needle) :=
  decidable_of_iff (∃ q, q < l.length + 1 ∧ occursAt l needle q) (by
    constructor
    · rintro ⟨q, _, h⟩; exact ⟨q, h⟩
    · rintro ⟨q, h⟩
      exact ⟨q, by have := h.1; omega, h⟩)

/-- The scanning loop of `indexOfSubarray`: try positions `i, i+1, …`,
`k` of them in all. -/
def indexOfAux (haystack needle : List Nat) : Nat → Nat → Option Nat
  | _, 0 => none
  | i, k + 1 =>
    if matchesAt haystack needle i then some i
    else indexOfAux haystack needle (i + 1) k

/-- `indexOfSubarray(haystack, needle, fromIndex)`: first occurrence of
`needle` at or after `fromIndex` (the JS `-1` is `none`). -/
def indexOfSubarray (haystack needle : List Nat) (fromIndex : Nat) : Option Nat :=
  if fromIndex + needle.length ≤ haystack.length then
    indexOfAux haystack needle fromIndex (haystack.length - needle.length + 1 - fromIndex)
  else none

/-- The scanning loop of `lastIndexOfSubarray`: try positions
`i, i-1, …`, `k` of them in all (the loop stops after position `0`). -/
def lastIndexOfAux (haystack needle : List Nat) : Nat → Nat → Option Nat
  | _, 0 => none
  | i, k + 1 =>
    if matchesAt haystack needle i then some i
    else lastIndexOfAux haystack needle (i - 1) k

/-- `lastIndexOfSubarray(haystack, needle, beforeIndex)`: last occurrence of
`needle` starting at or before `beforeIndex`. -/
def lastIndexOfSubarray (haystack needle : List Nat) (beforeIndex : Nat) : Option Nat :=
  if needle.length ≤ haystack.length then
    lastIndexOfAux haystack needle (min beforeIndex (haystack.length - needle.length))
      (min beforeIndex (haystack.length - needle.length) + 1)
  else none

/-- `skipCRLF(u8, i)`: step over one CRLF pair if present at `i`. -/
def skipCRLF (u8 : List Nat) (i : Nat) : Nat :=
  if u8.getD i 0 == 13 && u8.getD (i + 1) 0 == 10 then i + 2 else i

/-- Bytes removed by the JS trim regex `/^\s+|\s+$/g` (ASCII whitespace;
the non-ASCII code points JS `\s` also covers are multi-byte in UTF-8 and
outside the byte-identity fragment modelled here). -/
def isSpaceByte (b : Nat) : Bool :=
  b == 32 || b == 9 || b == 10 || b == 11 || b == 12 || b == 13

/-- `.replace(/^\s+|\s+$/g, "")`: strip leading and trailing whitespace. -/
def trimBytes (v : List Nat) : List Nat :=
  ((v.dropWhile isSpaceByte).reverse.dropWhile isSpaceByte).reverse

/-- `fnMatch[1].split("/").pop()`: the final `/`-separated segment. -/
def basename (v : List Nat) : List Nat := (v.splitOn 47).getLastD []

/-- ASCII lowercasing of one byte, as the `/i` regex flag applies to the
literal (ASCII) characters of the patterns `name="` and `filename="`. -/
def toLowerByte (b : Nat) : Nat := if 65 ≤ b ∧ b ≤ 90 then b + 32 else b

/-- One attempt of the regex `/pat"([^"]+)"/i` at start position `i`:
the (lower-cased) literal `pat` must match, and the capture `[^"]+` is the
greedy run of non-quote bytes after it, which must be non-empty and be
followed by a closing quote. -/
def attrCaptureAt (hdr pat : List Nat) (i : Nat) : Option (List Nat) :=
  if matchesAt (hdr.map toLowerByte) pat i then
    let rest := hdr.drop (i + pat.length)
    let v := rest.takeWhile (fun b => b != 34)
    if v.length ≠ 0 ∧ v.length < rest.length then some v else none
  else none

/-- The regex engine's left-to-right scan: first position whose attempt
succeeds, trying `k` positions from `i`. -/
def regexFirstMatchAux (hdr pat : List Nat) : Nat → Nat → Option (List Nat)
  | _, 0 => none
  | i, k + 1 =>
    match attrCaptureAt hdr pat i with
    | some v => some v
    | none => regexFirstMatchAux hdr pat (i + 1) k

/-- `headersText.match(/pat"([^"]+)"/i)` capture group 1:
leftmost match, greedy non-empty capture. -/
def regexFirstMatch (hdr pat : List Nat) : Option (List Nat) :=
  regexFirstMatchAux hdr pat 0 (hdr.length + 1)

/-- Bytes of `name="` (the case-sensitive prefix of the header needle). -/
def nameKey : List Nat := ascii ("name=") ++ [34]

/-- Bytes of `filename=` (lower-cased literal of the filename regex),
with the opening quote. -/
def filenameKey : List Nat := ascii ("filename=") ++ [34]

/-- `enc(`name="${fieldName}"`)`. -/
def nameNeedle (fieldName : List Nat) : List Nat := nameKey ++ fieldName ++ [34]

/-- `enc(`--${boundary}`)`. -/
def dashDelim (boundary : List Nat) : List Nat := [45, 45] ++ boundary

/-- `enc(`\r\n--${boundary}`)`. -/
def crlfDelim (boundary : List Nat) : List Nat := [13, 10, 45, 45] ++ boundary

/-- `enc("\r\n\r\n")`. -/
def headerEndMarker : List Nat := [13, 10, 13, 10]

/-- Result record of `extractMultipartFilePart`. -/
structure FilePart where
  filename : List Nat
  fileBytes : List Nat
deriving DecidableEq

/-- Result record of `extractAllMultipartFileParts`. -/
structure NamedPart where
  fieldName : List Nat
  filename : List Nat
  fileBytes : List Nat
deriving DecidableEq

/-- `extractMultipartFilePart(bodyU8, boundary, fieldName)`. -/
def extractMultipartFilePart (bodyU8 boundary fieldName : List Nat) : Option FilePart :=
  match indexOfSubarray bodyU8 (nameNeedle fieldName) 0 with
  | none => none
  | some namePos =>
    match lastIndexOfSubarray bodyU8 (dashDelim boundary) namePos with
    | none => none
    | some partStart =>
      let headersStart := skipCRLF bodyU8 (partStart + (dashDelim boundary).length)
      match indexOfSubarray bodyU8 headerEndMarker headersStart with
      | none => none
      | some headersEnd =>
        let headersText := (bodyU8.drop headersStart).take (headersEnd - headersStart)
        let filename :=
          match regexFirstMatch headersText filenameKey with
          | some v => basename v
          | none => []
        let contentStart := headersEnd + headerEndMarker.length
        match indexOfSubarray bodyU8 (crlfDelim boundary) contentStart with
        | none => none
        | some contentEnd =>
          some ⟨filename, (bodyU8.drop contentStart).take (contentEnd - contentStart)⟩

/-- `extractMultipartTextField(bodyU8, boundary, fieldName)` (the JS empty
string is the empty byte list). -/
def extractMultipartTextField (bodyU8 boundary fieldName : List Nat) : List Nat :=
  match indexOfSubarray bodyU8 (nameNeedle fieldName) 0 with
  | none => []
  | some namePos =>
    match lastIndexOfSubarray bodyU8 (dashDelim boundary) namePos with
    | none => []
    | some partStart =>
      let headersStart := skipCRLF bodyU8 (partStart + (dashDelim boundary).length)
      match indexOfSubarray bodyU8 headerEndMarker headersStart with
      | none => []
      | some headersEnd =>
        let contentStart := headersEnd + headerEndMarker.length
        match indexOfSubarray bodyU8 (crlfDelim boundary) contentStart with
        | none => []
        | some contentEnd =>
          trimBytes ((bodyU8.drop contentStart).take (contentEnd - contentStart))

/-- The `while (true)` loop of `extractAllMultipartFileParts`, with an
explicit iteration budget `fuel` (the loop's cursor strictly increases, so
`bodyU8.length + 1` iterations always suffice — proved below). -/
def extractAllAux (bodyU8 boundary : List Nat) : Nat → Nat → List NamedPart
  | _, 0 => []
  | searchFrom, fuel + 1 =>
    match indexOfSubarray bodyU8 (dashDelim boundary) searchFrom with
    | none => []
    | some partStart =>
      let afterBoundary := partStart + (dashDelim boundary).length
      if bodyU8.getD afterBoundary 0 == 45 && bodyU8.getD (afterBoundary + 1) 0 == 45 then []
      else
        let headersStart := skipCRLF bodyU8 afterBoundary
        match indexOfSubarray bodyU8 headerEndMarker headersStart with
        | none => []
        | some headersEnd =>
          let headersText := (bodyU8.drop headersStart).take (headersEnd - headersStart)
          let fieldName := (regexFirstMatch headersText nameKey).getD []
          let filename :=
            match regexFirstMatch headersText filenameKey with
            | some v => basename v
            | none => []
          let contentStart := headersEnd + headerEndMarker.length
          let contentEnd :=
            (indexOfSubarray bodyU8 (crlfDelim boundary) contentStart).getD bodyU8.length
          let fileBytes := (bodyU8.drop contentStart).take (contentEnd - contentStart)
          let rest := extractAllAux bodyU8 boundary contentEnd fuel
          if filename.isEmpty then rest else ⟨fieldName, filename, fileBytes⟩ :: rest

/-- `extractAllMultipartFileParts(bodyU8, boundary)`. -/
def extractAllMultipartFileParts (bodyU8 boundary : List Nat) : List NamedPart :=
  extractAllAux bodyU8 boundary 0 (bodyU8.length + 1)

example : indexOfSubarray (ascii ("abcabc")) (ascii ("bc")) 0 = some 1 := by decide
example : indexOfSubarray (ascii ("abcabc")) (ascii ("bc")) 2 = some 4 := by decide
example : indexOfSubarray (ascii ("abcabc")) (ascii ("bd")) 0 = none := by decide
example : lastIndexOfSubarray (ascii ("abcabc")) (ascii ("bc")) 3 = some 1 := by decide
example : lastIndexOfSubarray (ascii ("abcabc")) (ascii ("bc")) 4 = some 4 := by decide
example : trimBytes (ascii ("  ab c" ++ " ")) = ascii ("ab c") := by decide
example : basename (ascii ("a/b/c.txt")) = ascii ("c.txt") := by decide
example : basename (ascii ("c.txt")) = ascii ("c.txt") := by decide
example : basename (ascii ("a/")) = [] := by decide
example : regexFirstMatch (ascii ("x; FileName=") ++ [34] ++ ascii ("a.gz") ++ [34]) filenameKey
    = some (ascii ("a.gz")) := by decide
example : regexFirstMatch (ascii ("x; filename=") ++ [34, 34]) filenameKey = none := by decide

/-! ### Position toolkit for byte lists -/

theorem getElem?_drop' (l : List Nat) (n m : Nat) : (l.drop n)[m]? = l[n + m]? := by
  induction n generalizing l with
  | zero => simp
  | succ k ih =>
    cases l with
    | nil => simp
    | cons a t => simp only [List.drop_succ_cons, ih t, Nat.succ_add, List.getElem?_cons_succ]

theorem occursAt_getElem {h n : List Nat} {q : Nat} (ho : occursAt h n q) :
    ∀ i, q ≤ i → i < q + n.length → h[i]? = n[i - q]? := by
  intro i hi1 hi2
  have h2 := ho.2
  have he : n[i - q]? = ((h.drop q).take n.length)[i - q]? := by rw [h2]
  rw [he, List.getElem?_take_of_lt (by omega), getElem?_drop']
  congr 1
  omega

theorem occursAt_iff_forall {h n : List Nat} {q : Nat} :
    occursAt h n q ↔ (q + n.length ≤ h.length ∧ ∀ j, j < n.length → h[q + j]? = n[j]?) := by
  constructor
  · intro ho
    refine ⟨ho.1, fun j hj => ?_⟩
    have hg := occursAt_getElem ho (q + j) (by omega) (by omega)
    simpa using hg
  · rintro ⟨hb, hp⟩
    refine ⟨hb, ?_⟩
    apply List.ext_getElem?
    intro i
    by_cases hi : i < n.length
    · rw [List.getElem?_take_of_lt hi, getElem?_drop', hp i hi]
    · rw [List.getElem?_eq_none, List.getElem?_eq_none (by omega)]
      simp only [List.length_take, List.length_drop]
      omega

theorem not_occursAt_of_byte {body pat : List Nat} {q i b c : Nat}
    (h1 : q ≤ i) (h2 : i < q + pat.length) (hb : body[i]? = some b)
    (hc : pat[i - q]? = some c) (hbc : b ≠ c) : ¬ occursAt body pat q := by
  intro ho
  have hg := occursAt_getElem ho i h1 h2
  rw [hb, hc] at hg
  exact hbc (by injection hg)

theorem getElem?_append_mid (X Z : List Nat) (t : Nat) : (X ++ Z)[X.length + t]? = Z[t]? := by
  rw [List.getElem?_append_right (by omega)]
  congr 1
  omega

theorem occursAt_append_mid (X n Y : List Nat) : occursAt (X ++ n ++ Y) n X.length := by
  constructor
  · simp only [List.length_append]
    omega
  · rw [List.append_assoc, List.drop_left, List.take_left]

theorem occursAt_take {h n : List Nat} {q : Nat} (ho : occursAt h n q)
    (t : Nat) (ht : t ≤ n.length) : occursAt h (n.take t) q := by
  have hb := ho.1
  constructor
  · simp only [List.length_take]
    omega
  · have h2 := ho.2
    have he : (h.drop q).take (n.take t).length = ((h.drop q).take n.length).take t := by
      rw [List.take_take]
      congr 1
      simp only [List.length_take]
    rw [he, h2]

theorem occursAt_drop {h n : List Nat} {q : Nat} (ho : occursAt h n q) (t : Nat) :
    (h.drop (q + t)).take (n.length - t) = n.drop t := by
  have h2 := ho.2
  calc (h.drop (q + t)).take (n.length - t)
      = ((h.drop q).drop t).take (n.length - t) := by rw [List.drop_drop]
    _ = ((h.drop q).take n.length).drop t := by rw [List.drop_take]
    _ = n.drop t := by rw [h2]

theorem occursAt_append_left {A C pat : List Nat} {q : Nat}
    (ho : occursAt (A ++ C) pat q) (hq : q + pat.length ≤ A.length) : occursAt A pat q := by
  rw [occursAt_iff_forall] at ho ⊢
  refine ⟨hq, fun j hj => ?_⟩
  rw [← ho.2 j hj, List.getElem?_append_left (by omega)]

theorem occursAt_append_right {A C pat : List Nat} {q : Nat}
    (ho : occursAt (A ++ C) pat q) (hq : A.length ≤ q) : occursAt C pat (q - A.length) := by
  rw [occursAt_iff_forall] at ho ⊢
  have hb := ho.1
  simp only [List.length_append] at hb
  refine ⟨by omega, fun j hj => ?_⟩
  have := ho.2 j hj
  rw [List.getElem?_append_right (show A.length ≤ q + j by omega)] at this
  rw [← this]
  congr 1
  omega

theorem occursAt_append_cases {A C pat : List Nat} {q : Nat} (ho : occursAt (A ++ C) pat q) :
    (q + pat.length ≤ A.length ∧ occursAt A pat q)
    ∨ (A.length ≤ q ∧ occursAt C pat (q - A.length))
    ∨ (q < A.length ∧ A.length < q + pat.length) := by
  by_cases h1 : q + pat.length ≤ A.length
  · exact Or.inl ⟨h1, occursAt_append_left ho h1⟩
  by_cases h2 : A.length ≤ q
  · exact Or.inr (Or.inl ⟨h2, occursAt_append_right ho h2⟩)
  · exact Or.inr (Or.inr ⟨by omega, by omega⟩)

theorem occursAt_of_middle {X Z pat : List Nat} {q : Nat}
    (ho : occursAt (X ++ Z) pat (X.length + q)) : occursAt Z pat q := by
  have := occursAt_append_right ho (by omega)
  simpa using this

/-! ### Characterization of the two scanning loops -/

theorem matchesAt_iff {h n : List Nat} {i : Nat} (hi : i ≤ h.length) :
    matchesAt h n i = true ↔ occursAt h n i := by
  unfold matchesAt occursAt
  rw [beq_iff_eq]
  constructor
  · intro he
    have hl : ((h.drop i).take n.length).length = n.length := by rw [he]
    simp only [List.length_take, List.length_drop] at hl
    exact ⟨by omega, he⟩
  · exact fun hp => hp.2

theorem matchesAt_false_of_not {h n : List Nat} {i : Nat} (hi : i ≤ h.length)
    (hno : ¬ occursAt h n i) : matchesAt h n i = false := by
  rcases hb : matchesAt h n i with _ | _
  · rfl
  · exact absurd ((matchesAt_iff hi).1 hb) hno

theorem indexOfAux_some {h n : List Nat} :
    ∀ k i r, indexOfAux h n i k = some r →
      i ≤ r ∧ r < i + k ∧ matchesAt h n r = true ∧
        ∀ j, i ≤ j → j < r → matchesAt h n j = false := by
  intro k
  induction k with
  | zero => intro i r hr; simp [indexOfAux] at hr
  | succ m ih =>
    intro i r hr
    rw [indexOfAux] at hr
    by_cases hm : matchesAt h n i = true
    · rw [if_pos hm] at hr
      injection hr with hr
      subst hr
      exact ⟨Nat.le_refl _, by omega, hm, fun j h1 h2 => by omega⟩
    · rw [if_neg hm] at hr
      obtain ⟨a1, a2, a3, a4⟩ := ih (i + 1) r hr
      refine ⟨by omega, by omega, a3, fun j h1 h2 => ?_⟩
      rcases Nat.eq_or_lt_of_le h1 with he | hl
      · subst he; simpa using hm
      · exact a4 j hl h2

theorem indexOfAux_none {h n : List Nat} :
    ∀ k i, indexOfAux h n i k = none →
      ∀ j, i ≤ j → j < i + k → matchesAt h n j = false := by
  intro k
  induction k with
  | zero => intro i _ j h1 h2; omega
  | succ m ih =>
    intro i hr j h1 h2
    rw [indexOfAux] at hr
    by_cases hm : matchesAt h n i = true
    · rw [if_pos hm] at hr; exact absurd hr (by simp)
    · rw [if_neg hm] at hr
      rcases Nat.eq_or_lt_of_le h1 with he | hl
      · subst he; simpa using hm
      · exact ih (i + 1) hr j hl (by omega)

theorem indexOfAux_of_first {h n : List Nat} :
    ∀ k i r, i ≤ r → r < i + k → matchesAt h n r = true →
      (∀ j, i ≤ j → j < r → matchesAt h n j = false) →
      indexOfAux h n i k = some r := by
  intro k
  induction k with
  | zero => intro i r h1 h2; omega
  | succ m ih =>
    intro i r h1 h2 h3 h4
    rw [indexOfAux]
    rcases Nat.eq_or_lt_of_le h1 with he | hl
    · subst he; rw [if_pos h3]
    · rw [if_neg (by simp [h4 i (Nat.le_refl _) hl])]
      exact ih (i + 1) r hl (by omega) h3 fun j hj1 hj2 => h4 j (by omega) hj2

theorem indexOfSubarray_eq_some {h n : List Nat} {f r : Nat} :
    indexOfSubarray h n f = some r ↔
      f ≤ r ∧ occursAt h n r ∧ ∀ j, f ≤ j → j < r → ¬ occursAt h n j := by
  unfold indexOfSubarray
  by_cases hg : f + n.length ≤ h.length
  · rw [if_pos hg]
    constructor
    · intro hr
      obtain ⟨a1, a2, a3, a4⟩ := indexOfAux_some _ _ _ hr
      have hr2 : r ≤ h.length - n.length := by omega
      refine ⟨a1, (matchesAt_iff (by omega)).1 a3, fun j h1 h2 => ?_⟩
      intro hoj
      have := (matchesAt_iff (by omega)).2 hoj
      rw [a4 j h1 h2] at this
      exact absurd this (by simp)
    · rintro ⟨h1, h2, h3⟩
      have hb := h2.1
      apply indexOfAux_of_first _ _ _ h1 (by omega) ((matchesAt_iff (by omega)).2 h2)
      intro j hj1 hj2
      exact matchesAt_false_of_not (by omega) (h3 j hj1 hj2)
  · rw [if_neg hg]
    constructor
    · intro hr; exact absurd hr (by simp)
    · rintro ⟨h1, h2, _⟩
      have := h2.1
      omega

theorem indexOfSubarray_eq_none {h n : List Nat} {f : Nat} :
    indexOfSubarray h n f = none ↔ ∀ j, f ≤ j → ¬ occursAt h n j := by
  unfold indexOfSubarray
  by_cases hg : f + n.length ≤ h.length
  · rw [if_pos hg]
    constructor
    · intro hr j h1 hoj
      have hb := hoj.1
      have := indexOfAux_none _ _ hr j h1 (by omega)
      rw [(matchesAt_iff (by omega)).2 hoj] at this
      exact absurd this (by simp)
    · intro hall
      rcases hr : indexOfAux h n f (h.length - n.length + 1 - f) with _ | r
      · rfl
      · obtain ⟨a1, a2, a3, _⟩ := indexOfAux_some _ _ _ hr
        exact absurd ((matchesAt_iff (by omega)).1 a3) (hall r a1)
  · rw [if_neg hg]
    constructor
    · intro _ j h1 hoj
      have := hoj.1
      omega
    · intro _; rfl

theorem lastIndexOfAux_some {h n : List Nat} :
    ∀ i r, lastIndexOfAux h n i (i + 1) = some r →
      r ≤ i ∧ matchesAt h n r = true ∧ ∀ j, r < j → j ≤ i → matchesAt h n j = false := by
  intro i
  induction i with
  | zero =>
    intro r hr
    rw [lastIndexOfAux] at hr
    by_cases hm : matchesAt h n 0 = true
    · rw [if_pos hm] at hr
      injection hr with hr
      subst hr
      exact ⟨Nat.le_refl _, hm, fun j h1 h2 => by omega⟩
    · rw [if_neg hm] at hr
      exact absurd hr (by simp [lastIndexOfAux])
  | succ m ih =>
    intro r hr
    rw [lastIndexOfAux] at hr
    by_cases hm : matchesAt h n (m + 1) = true
    · rw [if_pos hm] at hr
      injection hr with hr
      subst hr
      exact ⟨Nat.le_refl _, hm, fun j h1 h2 => by omega⟩
    · rw [if_neg hm] at hr
      simp only [Nat.add_sub_cancel] at hr
      obtain ⟨a1, a2, a3⟩ := ih r hr
      refine ⟨by omega, a2, fun j h1 h2 => ?_⟩
      rcases Nat.eq_or_lt_of_le h2 with he | hl
      · subst he; simpa using hm
      · exact a3 j h1 (by omega)

theorem lastIndexOfAux_none {h n : List Nat} :
    ∀ i, lastIndexOfAux h n i (i + 1) = none →
      ∀ j, j ≤ i → matchesAt h n j = false := by
  intro i
  induction i with
  | zero =>
    intro hr j hj
    rw [lastIndexOfAux] at hr
    by_cases hm : matchesAt h n 0 = true
    · rw [if_pos hm] at hr; exact absurd hr (by simp)
    · interval_cases j
      simpa using hm
  | succ m ih =>
    intro hr j hj
    rw [lastIndexOfAux] at hr
    by_cases hm : matchesAt h n (m + 1) = true
    · rw [if_pos hm] at hr; exact absurd hr (by simp)
    · rw [if_neg hm] at hr
      simp only [Nat.add_sub_cancel] at hr
      rcases Nat.eq_or_lt_of_le hj with he | hl
      · subst he; simpa using hm
      · exact ih hr j (by omega)

theorem lastIndexOfAux_of_last {h n : List Nat} :
    ∀ i r, r ≤ i → matchesAt h n r = true →
      (∀ j, r < j → j ≤ i → matchesAt h n j = false) →
      lastIndexOfAux h n i (i + 1) = some r := by
  intro i
  induction i with
  | zero =>
    intro r h1 h2 _
    interval_cases r
    rw [lastIndexOfAux, if_pos h2]
  | succ m ih =>
    intro r h1 h2 h3
    rw [lastIndexOfAux]
    rcases Nat.eq_or_lt_of_le h1 with he | hl
    · subst he; rw [if_pos h2]
    · rw [if_neg (by simp [h3 (m + 1) hl (Nat.le_refl _)])]
      simp only [Nat.add_sub_cancel]
      exact ih r (by omega) h2 fun j hj1 hj2 => h3 j hj1 (by omega)

theorem lastIndexOfSubarray_eq_some {h n : List Nat} {b r : Nat} :
    lastIndexOfSubarray h n b = some r ↔
      r ≤ b ∧ occursAt h n r ∧ ∀ j, r < j → j ≤ b → ¬ occursAt h n j := by
  unfold lastIndexOfSubarray
  by_cases hg : n.length ≤ h.length
  · rw [if_pos hg]
    constructor
    · intro hr
      obtain ⟨a1, a2, a3⟩ := lastIndexOfAux_some _ _ hr
      have hr2 : r ≤ min b (h.length - n.length) := a1
      refine ⟨by omega, (matchesAt_iff (by omega)).1 a2, fun j h1 h2 => ?_⟩
      intro hoj
      have hjb := hoj.1
      have hj2 : j ≤ min b (h.length - n.length) := by omega
      have := (matchesAt_iff (by omega)).2 hoj
      rw [a3 j h1 hj2] at this
      exact absurd this (by simp)
    · rintro ⟨h1, h2, h3⟩
      have hb := h2.1
      apply lastIndexOfAux_of_last _ _ (by omega) ((matchesAt_iff (by omega)).2 h2)
      intro j hj1 hj2
      exact matchesAt_false_of_not (by omega) (h3 j hj1 (by omega))
  · rw [if_neg hg]
    constructor
    · intro hr; exact absurd hr (by simp)
    · rintro ⟨h1, h2, _⟩
      have := h2.1
      omega

theorem lastIndexOfSubarray_eq_none {h n : List Nat} {b : Nat} :
    lastIndexOfSubarray h n b = none ↔ ∀ j, j ≤ b → ¬ occursAt h n j := by
  unfold lastIndexOfSubarray
  by_cases hg : n.length ≤ h.length
  · rw [if_pos hg]
    constructor
    · intro hr j h1 hoj
      have hjb := hoj.1
      have := lastIndexOfAux_none _ hr j (by omega)
      rw [(matchesAt_iff (by omega)).2 hoj] at this
      exact absurd this (by simp)
    · intro hall
      rcases hr : lastIndexOfAux h n (min b (h.length - n.length)) (min b (h.length - n.length) + 1)
        with _ | r
      · rfl
      · obtain ⟨a1, a2, _⟩ := lastIndexOfAux_some _ _ hr
        have : r ≤ min b (h.length - n.length) := a1
        exact absurd ((matchesAt_iff (by omega)).1 a2) (hall r (by omega))
  · rw [if_neg hg]
    constructor
    · intro _ j h1 hoj
      have := hoj.1
      omega
    · intro _; rfl

/-! ### A well-formed multipart body builder (for the round-trip property)

The repository contains no body builder; it is the constructive half of the
spec's round-trip property, modelled from the spec. -/

/-- A part to be serialized: field name, optional filename attribute
(`none` for a text field), raw byte content. -/
structure SrcPart where
  name : List Nat
  filename : Option (List Nat)
  content : List Nat
deriving DecidableEq

/-- Bytes of `Content-Disposition: form-data; `. -/
def dispoLit : List Nat := ascii ("Content-Disposition: form-data; ")

/-- Bytes of `; filename=` plus the opening quote. -/
def fnameLit : List Nat := ascii ("; filename=") ++ [34]

/-- The serialized filename attribute of a part, when present. -/
def fnAttr : Option (List Nat) → List Nat
  | none => []
  | some f => fnameLit ++ f ++ [34]

/-- The header line of one serialized part:
`Content-Disposition: form-data; name="<name>"[; filename="<filename>"]`. -/
def hdrOf (p : SrcPart) : List Nat :=
  dispoLit ++ nameKey ++ p.name ++ [34] ++ fnAttr p.filename

/-- Modelled from the spec: one part of a well-formed multipart body —
`--<boundary> CRLF <header line> CRLF CRLF <content> CRLF`. -/
def partSeg (B : List Nat) (p : SrcPart) : List Nat :=
  [45, 45] ++ B ++ [13, 10] ++ hdrOf p ++ [13, 10, 13, 10] ++ p.content ++ [13, 10]

/-- Modelled from the spec: "building a well-formed multipart body" (§8
round-trip): the serialized parts in order, closed by `--<boundary>--`. -/
def buildBody (B : List Nat) (ps : List SrcPart) : List Nat :=
  (ps.map (partSeg B)).foldr (· ++ ·) ([45, 45] ++ B ++ [45, 45])

/-- A token free of the delimiter-sensitive bytes `"`, CR, LF, `=`. -/
def cleanToken (t : List Nat) : Prop := 34 ∉ t ∧ 13 ∉ t ∧ 10 ∉ t ∧ 61 ∉ t

instance (t : List Nat) : Decidable (cleanToken t) := by
  unfold cleanToken; infer_instance

/-- A boundary free of quote, CR and LF bytes. -/
def cleanBoundary (B : List Nat) : Prop := 34 ∉ B ∧ 13 ∉ B ∧ 10 ∉ B

instance (B : List Nat) : Decidable (cleanBoundary B) := by
  unfold cleanBoundary; infer_instance

/-- Conditions on a part's filename attribute, if any: clean, non-empty,
free of `/` (so that basename reduction is the identity). -/
def fnameOk : Option (List Nat) → Prop
  | none => True
  | some f => cleanToken f ∧ f ≠ [] ∧ 47 ∉ f

instance (o : Option (List Nat)) : Decidable (fnameOk o) := by
  cases o <;> unfold fnameOk <;> infer_instance

/-- The filename attribute, if any, differs from the field name `nm`. -/
def fnameNotName (nm : List Nat) : Option (List Nat) → Prop
  | none => True
  | some f => f ≠ nm

instance (nm : List Nat) (o : Option (List Nat)) : Decidable (fnameNotName nm o) := by
  cases o <;> unfold fnameNotName <;> infer_instance

/-- Safety conditions on one part: clean non-empty name, content free of
the two scanner patterns `name="` and `CRLF--<boundary>`, filename clean. -/
def safePart (B : List Nat) (p : SrcPart) : Prop :=
  cleanToken p.name ∧ p.name ≠ [] ∧
  ¬ hasSub p.content nameKey ∧ ¬ hasSub p.content (crlfDelim B) ∧
  fnameOk p.filename

instance (B : List Nat) (p : SrcPart) : Decidable (safePart B p) := by
  unfold safePart; infer_instance

/-- Safety conditions on a whole build: clean boundary, pairwise-distinct
field names, each part safe, and no filename equal to any field name. -/
def safeBuild (B : List Nat) (ps : List SrcPart) : Prop :=
  cleanBoundary B ∧ (ps.map SrcPart.name).Nodup ∧
  (∀ p ∈ ps, safePart B p) ∧
  (∀ p ∈ ps, ∀ q ∈ ps, fnameNotName p.name q.filename)

instance (B : List Nat) (ps : List SrcPart) : Decidable (safeBuild B ps) := by
  unfold safeBuild; infer_instance

theorem buildBody_nil (B : List Nat) : buildBody B [] = [45, 45] ++ B ++ [45, 45] := rfl

theorem buildBody_cons (B : List Nat) (p : SrcPart) (ps : List SrcPart) :
    buildBody B (p :: ps) = partSeg B p ++ buildBody B ps := rfl

theorem dispoLit_length : dispoLit.length = 32 := by decide
theorem nameKey_length : nameKey.length = 6 := by decide
theorem fnameLit_length : fnameLit.length = 12 := by decide

theorem hdrOf_length (p : SrcPart) :
    (hdrOf p).length = 39 + p.name.length + (fnAttr p.filename).length := by
  simp only [hdrOf, List.length_append, dispoLit_length, nameKey_length]
  simp
  omega

theorem fnAttr_length_some (f : List Nat) : (fnAttr (some f)).length = 13 + f.length := by
  simp only [fnAttr, List.length_append, fnameLit_length]
  simp
  omega

theorem partSeg_length (B : List Nat) (p : SrcPart) :
    (partSeg B p).length = 10 + B.length + (hdrOf p).length + p.content.length := by
  simp only [partSeg, List.length_append]
  simp
  omega

/-! ### Byte layout of a serialized header line -/

theorem cdKey_length : (dispoLit ++ nameKey).length = 38 := by decide

theorem hdrOf_eq (p : SrcPart) :
    hdrOf p = (dispoLit ++ nameKey) ++ (p.name ++ ([34] ++ fnAttr p.filename)) := by
  simp [hdrOf, List.append_assoc]

theorem hdr_at_low (p : SrcPart) (i : Nat) (hi : i < 38) :
    (hdrOf p)[i]? = (dispoLit ++ nameKey)[i]? := by
  rw [hdrOf_eq, List.getElem?_append_left (by rw [cdKey_length]; omega)]

theorem hdr_at_mid (p : SrcPart) (t : Nat) :
    (hdrOf p)[38 + t]? = (p.name ++ ([34] ++ fnAttr p.filename))[t]? := by
  rw [hdrOf_eq]
  have hg := getElem?_append_mid (dispoLit ++ nameKey) (p.name ++ ([34] ++ fnAttr p.filename)) t
  rwa [cdKey_length] at hg

theorem hdr_at_name (p : SrcPart) (j : Nat) (hj : j < p.name.length) :
    (hdrOf p)[38 + j]? = p.name[j]? := by
  rw [hdr_at_mid, List.getElem?_append_left hj]

theorem hdr_at_close (p : SrcPart) : (hdrOf p)[38 + p.name.length]? = some 34 := by
  rw [hdr_at_mid]
  have hg := getElem?_append_mid p.name ([34] ++ fnAttr p.filename) 0
  rw [Nat.add_zero] at hg
  rw [hg]
  simp

theorem hdr_at_fn (p : SrcPart) (t : Nat) :
    (hdrOf p)[39 + p.name.length + t]? = (fnAttr p.filename)[t]? := by
  have h1 : 39 + p.name.length + t = 38 + (p.name.length + (1 + t)) := by omega
  rw [h1, hdr_at_mid, getElem?_append_mid]
  have h2 : (1 : Nat) + t = List.length [(34 : Nat)] + t := by simp
  rw [h2, getElem?_append_mid]

theorem hdr_at_fnameLit {p : SrcPart} {f : List Nat} (hp : p.filename = some f)
    (j : Nat) (hj : j < 12) :
    (hdrOf p)[39 + p.name.length + j]? = fnameLit[j]? := by
  rw [hdr_at_fn, hp]
  show (fnameLit ++ (f ++ [34]))[j]? = fnameLit[j]?
  rw [List.getElem?_append_left (by rw [fnameLit_length]; omega)]

theorem hdr_at_f {p : SrcPart} {f : List Nat} (hp : p.filename = some f) (j : Nat)
    (hj : j < f.length) :
    (hdrOf p)[51 + p.name.length + j]? = f[j]? := by
  have h1 : 51 + p.name.length + j = 39 + p.name.length + (12 + j) := by omega
  rw [h1, hdr_at_fn, hp]
  show (fnameLit ++ (f ++ [34]))[12 + j]? = f[j]?
  have h2 : (12 : Nat) + j = fnameLit.length + j := by rw [fnameLit_length]
  rw [h2, getElem?_append_mid, List.getElem?_append_left hj]

theorem hdr_at_fclose {p : SrcPart} {f : List Nat} (hp : p.filename = some f) :
    (hdrOf p)[51 + p.name.length + f.length]? = some 34 := by
  have h1 : 51 + p.name.length + f.length = 39 + p.name.length + (12 + f.length) := by omega
  rw [h1, hdr_at_fn, hp]
  show (fnameLit ++ (f ++ [34]))[12 + f.length]? = some 34
  have h2 : (12 : Nat) + f.length = fnameLit.length + f.length := by rw [fnameLit_length]
  rw [h2, getElem?_append_mid]
  have hg := getElem?_append_mid f [34] 0
  rw [Nat.add_zero] at hg
  rw [hg]
  simp

theorem cd_quote : ∀ i, i < 38 → ((dispoLit ++ nameKey)[i]? = some 34 ↔ i = 37) := by decide

theorem fnameLit_quote : ∀ j, j < 12 → (fnameLit[j]? = some 34 ↔ j = 11) := by decide

/-- Every quote byte of a serialized header line sits at one of the four
attribute-quote positions. -/
theorem hdr_quote_pos {p : SrcPart} (hc : cleanToken p.name) (hf : fnameOk p.filename) :
    ∀ i, (hdrOf p)[i]? = some 34 →
      i = 37 ∨ i = 38 + p.name.length ∨
      (∃ f, p.filename = some f ∧ (i = 50 + p.name.length ∨ i = 51 + p.name.length + f.length)) := by
  intro i hi
  by_cases h1 : i < 38
  · rw [hdr_at_low p i h1] at hi
    exact Or.inl ((cd_quote i h1).1 hi)
  by_cases h2 : i < 38 + p.name.length
  · exfalso
    have he : i = 38 + (i - 38) := by omega
    rw [he, hdr_at_name p (i - 38) (by omega)] at hi
    exact hc.1 (List.getElem?_mem hi)
  by_cases h3 : i = 38 + p.name.length
  · exact Or.inr (Or.inl h3)
  -- i lands in the filename attribute
  rcases hfn : p.filename with _ | f
  · exfalso
    have he : i = 39 + p.name.length + (i - 39 - p.name.length) := by omega
    rw [he, hdr_at_fn, hfn] at hi
    simp [fnAttr] at hi
  · rw [hfn] at hf
    obtain ⟨hfc, -, -⟩ := hf
    by_cases h4 : i < 39 + p.name.length + 12
    · have he : i = 39 + p.name.length + (i - 39 - p.name.length) := by omega
      rw [he, hdr_at_fnameLit hfn (i - 39 - p.name.length) (by omega)] at hi
      have := (fnameLit_quote (i - 39 - p.name.length) (by omega)).1 hi
      exact Or.inr (Or.inr ⟨f, rfl, Or.inl (by omega)⟩)
    by_cases h5 : i < 51 + p.name.length + f.length
    · exfalso
      have he : i = 51 + p.name.length + (i - 51 - p.name.length) := by omega
      rw [he, hdr_at_f hfn (i - 51 - p.name.length) (by omega)] at hi
      exact hfc.1 (List.getElem?_mem hi)
    by_cases h6 : i = 51 + p.name.length + f.length
    · exact Or.inr (Or.inr ⟨f, rfl, Or.inr h6⟩)
    · exfalso
      have hl : (hdrOf p).length = 39 + p.name.length + (13 + f.length) := by
        rw [hdrOf_length, hfn, fnAttr_length_some]
      have : i < (hdrOf p).length := by
        by_contra hge
        rw [List.getElem?_eq_none (by omega)] at hi
        exact absurd hi (by simp)
      omega

theorem hdr_at_37 (p : SrcPart) : (hdrOf p)[37]? = some 34 := by
  rw [hdr_at_low p 37 (by omega)]
  decide

theorem hdr_at_50 {p : SrcPart} {f : List Nat} (hp : p.filename = some f) :
    (hdrOf p)[50 + p.name.length]? = some 34 := by
  have he : 50 + p.name.length = 39 + p.name.length + 11 := by omega
  rw [he, hdr_at_fnameLit hp 11 (by omega)]
  decide

theorem nameKey_at5 : nameKey[5]? = some 34 := by decide
theorem nameKey_at4 : nameKey[4]? = some 61 := by decide
theorem nameKey_low_ne34 : ∀ j, j ≤ 4 → nameKey[j]? ≠ some 34 := by decide
theorem nameKey_no13 : ∀ j, j < 6 → nameKey[j]? ≠ some 13 := by decide
theorem nameKey_no10 : ∀ j, j < 6 → nameKey[j]? ≠ some 10 := by decide
theorem nameKey_no67 : ∀ j, j < 6 → nameKey[j]? ≠ some 67 := by decide
theorem nameKey_no45 : ∀ j, j < 6 → nameKey[j]? ≠ some 45 := by decide

theorem no_straddle {A C pat : List Nat} {q : Nat} (ho : occursAt (A ++ C) pat q)
    (h1 : q < A.length) (h2 : A.length < q + pat.length)
    {c : Nat} (hc : C[0]? = some c) (hnc : ∀ j, j < pat.length → pat[j]? ≠ some c) : False := by
  have hb := occursAt_getElem ho A.length (by omega) (by omega)
  have hg : (A ++ C)[A.length]? = C[0]? := by
    have hm := getElem?_append_mid A C 0
    rwa [Nat.add_zero] at hm
  rw [hg, hc] at hb
  exact hnc (A.length - q) (by omega) hb.symm

theorem no_occ_mem {A pat : List Nat} {q j c : Nat} (ho : occursAt A pat q)
    (hj : j < pat.length) (hc : pat[j]? = some c) (hm : c ∉ A) : False := by
  have hb := occursAt_getElem ho (q + j) (by omega) (by omega)
  have he : q + j - q = j := by omega
  rw [he, hc] at hb
  exact hm (List.getElem?_mem hb)

/-- Occurrences of `name="` inside a serialized header line sit at the
canonical name-attribute position 32, or — when a filename attribute is
present — at the `name="` suffix of `filename="`, position `45 + |name|`. -/
theorem nameKey_occ_hdr {p : SrcPart} (hc : cleanToken p.name) (hf : fnameOk p.filename) :
    ∀ r, occursAt (hdrOf p) nameKey r →
      r = 32 ∨ (∃ f, p.filename = some f ∧ r = 45 + p.name.length) := by
  intro r ho
  have h5 : (hdrOf p)[r + 5]? = some 34 := by
    have hg := occursAt_getElem ho (r + 5) (by omega) (by rw [nameKey_length]; omega)
    have he : r + 5 - r = 5 := by omega
    rw [he, nameKey_at5] at hg
    exact hg
  rcases hdr_quote_pos hc hf (r + 5) h5 with h37 | hcl | ⟨f, hfe, hfq⟩
  · exact Or.inl (by omega)
  · exfalso
    by_cases hn : p.name.length ≤ 4
    · have hb := occursAt_getElem ho 37 (by omega) (by rw [nameKey_length]; omega)
      rw [hdr_at_37] at hb
      exact nameKey_low_ne34 (37 - r) (by omega) hb.symm
    · have hb := occursAt_getElem ho (r + 4) (by omega) (by rw [nameKey_length]; omega)
      have he2 : r + 4 = 38 + (p.name.length - 1) := by omega
      rw [he2, hdr_at_name p _ (by omega)] at hb
      have he3 : 38 + (p.name.length - 1) - r = 4 := by omega
      rw [he3, nameKey_at4] at hb
      exact hc.2.2.2 (List.getElem?_mem hb)
  · rcases hfq with hq1 | hq2
    · exact Or.inr ⟨f, hfe, by omega⟩
    · exfalso
      have hfok : cleanToken f := by
        rw [hfe] at hf
        exact hf.1
      by_cases hfl : f.length ≤ 4
      · have hb := occursAt_getElem ho (50 + p.name.length) (by omega)
          (by rw [nameKey_length]; omega)
        rw [hdr_at_50 hfe] at hb
        exact nameKey_low_ne34 (50 + p.name.length - r) (by omega) hb.symm
      · have hb := occursAt_getElem ho (r + 4) (by omega) (by rw [nameKey_length]; omega)
        have he2 : r + 4 = 51 + p.name.length + (f.length - 1) := by omega
        rw [he2, hdr_at_f hfe _ (by omega)] at hb
        have he3 : 51 + p.name.length + (f.length - 1) - r = 4 := by omega
        rw [he3, nameKey_at4] at hb
        exact hfok.2.2.2 (List.getElem?_mem hb)

theorem partSeg_eq (B : List Nat) (p : SrcPart) :
    partSeg B p =
      ([45, 45] ++ B ++ [13, 10]) ++
        (hdrOf p ++ ([13, 10, 13, 10] ++ (p.content ++ [13, 10]))) := by
  simp [partSeg, List.append_assoc]

theorem hdr_at_0 (p : SrcPart) : (hdrOf p)[0]? = some 67 := by
  rw [hdr_at_low p 0 (by omega)]
  decide

theorem no_straddle_last {A C pat : List Nat} {q : Nat} (ho : occursAt (A ++ C) pat q)
    (h1 : q < A.length) (h2 : A.length < q + pat.length)
    {c : Nat} (hc : A[A.length - 1]? = some c)
    (hnc : ∀ j, j < pat.length → pat[j]? ≠ some c) : False := by
  have hb := occursAt_getElem ho (A.length - 1) (by omega) (by omega)
  have hg : (A ++ C)[A.length - 1]? = A[A.length - 1]? :=
    List.getElem?_append_left (by omega)
  rw [hg, hc] at hb
  exact hnc (A.length - 1 - q) (by omega) hb.symm

/-- Occurrences of `name="` inside one serialized part sit at the canonical
name-attribute position, or at the `name="` suffix of `filename="`. -/
theorem nameKey_occ_seg {B : List Nat} {p : SrcPart} (hB : cleanBoundary B)
    (hp : safePart B p) :
    ∀ r, occursAt (partSeg B p) nameKey r →
      r = B.length + 36 ∨ (∃ f, p.filename = some f ∧ r = B.length + 49 + p.name.length) := by
  intro r ho
  rw [partSeg_eq] at ho
  have hAlen : ([45, 45] ++ B ++ [13, 10]).length = B.length + 4 := by simp
  have hHpos : 0 < (hdrOf p).length := by rw [hdrOf_length]; omega
  rcases occursAt_append_cases ho with ⟨hq, hoA⟩ | ⟨hq, hoR⟩ | ⟨hq1, hq2⟩
  · exfalso
    apply no_occ_mem hoA (j := 5) (by rw [nameKey_length]; omega) nameKey_at5
    intro hmem
    simp only [List.mem_append, List.mem_cons] at hmem
    rcases hmem with (h | h) | h
    · simp at h
    · exact hB.1 h
    · simp at h
  · rw [hAlen] at hoR hq
    rcases occursAt_append_cases hoR with ⟨hq', hoH⟩ | ⟨hq', hoT⟩ | ⟨hq1', hq2'⟩
    · rcases nameKey_occ_hdr hp.1 hp.2.2.2.2 _ hoH with h32 | ⟨f, hfe, hfn⟩
      · exact Or.inl (by omega)
      · exact Or.inr ⟨f, hfe, by omega⟩
    · exfalso
      rcases occursAt_append_cases hoT with ⟨hq2, hoM⟩ | ⟨hq2, hoC⟩ | ⟨hq3, hq4⟩
      · have hbound := hoM.1
        rw [nameKey_length] at hbound
        simp only [List.length_cons, List.length_nil] at hbound
        omega
      · rcases occursAt_append_cases hoC with ⟨hq5, hoCC⟩ | ⟨hq5, hoE⟩ | ⟨hq5, hq6⟩
        · exact hp.2.2.1 ⟨_, hoCC⟩
        · have hbound := hoE.1
          rw [nameKey_length] at hbound
          simp only [List.length_cons, List.length_nil] at hbound
          omega
        · exact no_straddle hoC hq5 (by rw [nameKey_length] at hq6 ⊢; omega)
            (c := 13) (by simp) nameKey_no13
      · refine no_straddle_last hoT hq3 (by rw [nameKey_length] at hq4 ⊢; omega)
          (c := 10) ?_ nameKey_no10
        simp only [List.length_cons, List.length_nil]
        decide
    · exact (no_straddle hoR hq1' (by rw [nameKey_length] at hq2' ⊢; omega)
        (c := 13) (by simp) nameKey_no13).elim
  · exfalso
    refine no_straddle ho (by omega) (by omega) (c := 67) ?_ nameKey_no67
    rw [List.getElem?_append_left hHpos]
    exact hdr_at_0 p

/-- The serialized bytes of a list of parts (without the closing
delimiter). -/
def segsFlat (B : List Nat) (pre : List SrcPart) : List Nat :=
  (pre.map (partSeg B)).foldr (· ++ ·) []

theorem segsFlat_nil (B : List Nat) : segsFlat B [] = [] := rfl

theorem segsFlat_cons (B : List Nat) (p : SrcPart) (pre : List SrcPart) :
    segsFlat B (p :: pre) = partSeg B p ++ segsFlat B pre := rfl

theorem buildBody_append (B : List Nat) (pre rest : List SrcPart) :
    buildBody B (pre ++ rest) = segsFlat B pre ++ buildBody B rest := by
  induction pre with
  | nil => simp [segsFlat_nil]
  | cons p pre ih =>
    rw [List.cons_append, buildBody_cons, ih, segsFlat_cons, List.append_assoc]

theorem buildBody_head (B : List Nat) (ps : List SrcPart) :
    (buildBody B ps)[0]? = some 45 := by
  cases ps with
  | nil => rfl
  | cons p ps => rfl

/-- Every occurrence of `name="` in a built body lies inside some part's
header line, at the name attribute or at the `name="` suffix of its
filename attribute. -/
theorem nameKey_occ_build {B : List Nat} (hB : cleanBoundary B) :
    ∀ ps, (∀ p ∈ ps, safePart B p) →
      ∀ r, occursAt (buildBody B ps) nameKey r →
        ∃ pre q post, ps = pre ++ q :: post ∧
          (r = (segsFlat B pre).length + B.length + 36 ∨
           ∃ f, q.filename = some f ∧
             r = (segsFlat B pre).length + B.length + 49 + q.name.length) := by
  intro ps
  induction ps with
  | nil =>
    intro _ r ho
    exfalso
    apply no_occ_mem ho (j := 5) (by rw [nameKey_length]; omega) nameKey_at5
    intro hmem
    rw [buildBody_nil] at hmem
    simp only [List.mem_append, List.mem_cons] at hmem
    rcases hmem with (h | h) | h
    · simp at h
    · exact hB.1 h
    · simp at h
  | cons p ps ih =>
    intro hsafe r ho
    rw [buildBody_cons] at ho
    rcases occursAt_append_cases ho with ⟨hq, hoS⟩ | ⟨hq, hoR⟩ | ⟨hq1, hq2⟩
    · rcases nameKey_occ_seg hB (hsafe p (by simp)) r hoS with h1 | ⟨f, hfe, h2⟩
      · exact ⟨[], p, ps, rfl, Or.inl (by simpa [segsFlat_nil] using h1)⟩
      · exact ⟨[], p, ps, rfl, Or.inr ⟨f, hfe, by simpa [segsFlat_nil] using h2⟩⟩
    · obtain ⟨pre, q, post, hps, hdisj⟩ :=
        ih (fun x hx => hsafe x (by simp [hx])) _ hoR
      refine ⟨p :: pre, q, post, by rw [hps]; rfl, ?_⟩
      rw [segsFlat_cons, List.length_append]
      rcases hdisj with h1 | ⟨f, hfe, h2⟩
      · exact Or.inl (by omega)
      · exact Or.inr ⟨f, hfe, by omega⟩
    · exact (no_straddle ho hq1 hq2 (c := 45) (buildBody_head B ps) nameKey_no45).elim

/-- Two quote-free tokens followed by a closing quote: if `x"` is a prefix
of `y"…`, the tokens are equal. -/
theorem tok_eq : ∀ (x y R : List Nat), 34 ∉ x → 34 ∉ y →
    (y ++ 34 :: R).take (x.length + 1) = x ++ [34] → x = y := by
  intro x
  induction x with
  | nil =>
    intro y R _ hy h
    cases y with
    | nil => rfl
    | cons b y2 =>
      simp only [List.length_nil, List.cons_append, List.take_succ_cons, List.take_zero,
        List.nil_append] at h
      have : b = 34 := by injection h
      exact absurd (this ▸ List.mem_cons_self b y2) hy
  | cons a x2 ih =>
    intro y R hx hy h
    cases y with
    | nil =>
      simp only [List.nil_append, List.length_cons, List.take_succ_cons, List.cons_append] at h
      have : (34 : Nat) = a := by injection h
      exact absurd (this ▸ List.mem_cons_self a x2) hx
    | cons b y2 =>
      simp only [List.length_cons, List.cons_append, List.take_succ_cons] at h
      have hab : b = a := by injection h
      have ht : (y2 ++ 34 :: R).take (x2.length + 1) = x2 ++ [34] := by
        have := h
        injection this
      subst hab
      rw [ih y2 R (fun hm => hx (List.mem_cons_of_mem _ hm))
        (fun hm => hy (List.mem_cons_of_mem _ hm)) ht]

/-- In a list with pairwise-distinct names, two decompositions around parts
of equal name coincide. -/
theorem nodup_split_eq : ∀ (ps pre pre' : List SrcPart) (q q' : SrcPart)
    (post post' : List SrcPart), (ps.map SrcPart.name).Nodup →
    ps = pre ++ q :: post → ps = pre' ++ q' :: post' → q.name = q'.name →
    pre = pre' ∧ q = q' := by
  intro ps
  induction ps with
  | nil =>
    intro pre pre' q q' post post' _ h1 _
    exact absurd h1.symm (by simp)
  | cons a ps2 ih =>
    intro pre pre' q q' post post' hn h1 h2 he
    cases pre with
    | nil =>
      cases pre' with
      | nil =>
        simp only [List.nil_append, List.cons.injEq] at h1 h2
        exact ⟨rfl, h1.1.symm.trans h2.1⟩
      | cons b pre2' =>
        exfalso
        simp only [List.nil_append, List.cons_append, List.cons.injEq] at h1 h2
        simp only [List.map_cons, List.nodup_cons] at hn
        apply hn.1
        rw [h1.1, he, h2.2]
        simp
    | cons b pre2 =>
      cases pre' with
      | nil =>
        exfalso
        simp only [List.nil_append, List.cons_append, List.cons.injEq] at h1 h2
        simp only [List.map_cons, List.nodup_cons] at hn
        apply hn.1
        rw [h2.1, ← he, h1.2]
        simp
      | cons b' pre2' =>
        simp only [List.cons_append, List.cons.injEq] at h1 h2
        simp only [List.map_cons, List.nodup_cons] at hn
        obtain ⟨hpre, hq⟩ := ih pre2 pre2' q q' post post' hn.2 h1.2 h2.2 he
        exact ⟨by rw [hpre, show b = b' from h1.1.symm.trans h2.1], hq⟩

theorem preludeLen (B : List Nat) :
    ([45, 45] ++ B ++ [13, 10] ++ dispoLit).length = B.length + 36 := by
  simp only [List.length_append, dispoLit_length]
  simp
  omega

theorem partSeg_needle_eq (B : List Nat) (q : SrcPart) :
    partSeg B q = ([45, 45] ++ B ++ [13, 10] ++ dispoLit) ++
      (nameNeedle q.name ++
        (fnAttr q.filename ++ ([13, 10, 13, 10] ++ (q.content ++ [13, 10])))) := by
  simp [partSeg, hdrOf, nameNeedle, List.append_assoc]

theorem buildBody_canonical {ps pre post : List SrcPart} {q : SrcPart} (B : List Nat)
    (h : ps = pre ++ q :: post) :
    buildBody B ps = (segsFlat B pre ++ ([45, 45] ++ B ++ [13, 10] ++ dispoLit)) ++
      (nameNeedle q.name ++
        (fnAttr q.filename ++ ([13, 10, 13, 10] ++ (q.content ++
          ([13, 10] ++ buildBody B post))))) := by
  subst h
  rw [buildBody_append, buildBody_cons, partSeg_needle_eq]
  simp [List.append_assoc]

theorem partSeg_fn_eq (B : List Nat) {q : SrcPart} {f : List Nat} (hf : q.filename = some f) :
    partSeg B q = ([45, 45] ++ B ++ [13, 10] ++ (dispoLit ++ (nameKey ++
        (q.name ++ ([34] ++ fnameLit))))) ++
      (f ++ ([34] ++ ([13, 10, 13, 10] ++ (q.content ++ [13, 10])))) := by
  simp [partSeg, hdrOf, hf, fnAttr, List.append_assoc]

theorem partSeg_fn_preLen (B : List Nat) (q : SrcPart) :
    ([45, 45] ++ B ++ [13, 10] ++ (dispoLit ++ (nameKey ++
      (q.name ++ ([34] ++ fnameLit))))).length = B.length + 55 + q.name.length := by
  simp only [List.length_append, dispoLit_length, nameKey_length, fnameLit_length]
  simp
  omega

theorem nameNeedle_length (nm : List Nat) : (nameNeedle nm).length = nm.length + 7 := by
  simp only [nameNeedle, List.length_append, nameKey_length]
  simp
  omega

theorem buildBody_canonical2 (B : List Nat) {ps pre post : List SrcPart} {q : SrcPart}
    (h : ps = pre ++ q :: post) :
    buildBody B ps = (segsFlat B pre ++ ([45, 45] ++ B ++ [13, 10] ++ dispoLit ++ nameKey)) ++
      (q.name ++ (34 :: (fnAttr q.filename ++ ([13, 10, 13, 10] ++ (q.content ++
        ([13, 10] ++ buildBody B post)))))) := by
  subst h
  rw [buildBody_append, buildBody_cons]
  simp [partSeg, hdrOf, List.append_assoc]

theorem prelude2Len (B : List Nat) :
    ([45, 45] ++ B ++ [13, 10] ++ dispoLit ++ nameKey).length = B.length + 42 := by
  simp only [List.length_append, dispoLit_length, nameKey_length]
  simp
  omega

theorem buildBody_fn_canonical (B : List Nat) {ps pre post : List SrcPart} {q : SrcPart}
    {f : List Nat} (h : ps = pre ++ q :: post) (hf : q.filename = some f) :
    buildBody B ps = (segsFlat B pre ++ ([45, 45] ++ B ++ [13, 10] ++ dispoLit ++ nameKey ++
        q.name ++ [34] ++ fnameLit)) ++
      (f ++ (34 :: ([13, 10, 13, 10] ++ (q.content ++ ([13, 10] ++ buildBody B post))))) := by
  subst h
  rw [buildBody_append, buildBody_cons]
  simp [partSeg, hdrOf, hf, fnAttr, List.append_assoc]

theorem preludeFnLen (B : List Nat) (q : SrcPart) :
    ([45, 45] ++ B ++ [13, 10] ++ dispoLit ++ nameKey ++ q.name ++ [34] ++
      fnameLit).length = B.length + 55 + q.name.length := by
  simp only [List.length_append, dispoLit_length, nameKey_length, fnameLit_length]
  simp
  omega

/-- In a safely built body, the first occurrence of `name="<q.name>"` is at
the name attribute of part `q`. -/
theorem needle_first {B : List Nat} {ps pre post : List SrcPart} {q : SrcPart}
    (hs : safeBuild B ps) (hps : ps = pre ++ q :: post) :
    indexOfSubarray (buildBody B ps) (nameNeedle q.name) 0 =
      some ((segsFlat B pre).length + B.length + 36) := by
  obtain ⟨hB, hnd, hsafe, hfn⟩ := hs
  have hqmem : q ∈ ps := by rw [hps]; simp
  have hq34 : 34 ∉ q.name := (hsafe q hqmem).1.1
  rw [indexOfSubarray_eq_some]
  refine ⟨Nat.zero_le _, ?_, ?_⟩
  · rw [buildBody_canonical B hps, ← List.append_assoc]
    have hX : (segsFlat B pre ++ ([45, 45] ++ B ++ [13, 10] ++ dispoLit)).length
        = (segsFlat B pre).length + B.length + 36 := by
      rw [List.length_append, preludeLen]
      omega
    rw [← hX]
    exact occursAt_append_mid _ _ _
  · intro j _ hj hoj
    have ho6 : occursAt (buildBody B ps) nameKey j := by
      have he6 : (nameNeedle q.name).take 6 = nameKey := by
        rw [nameNeedle, List.append_assoc, List.take_left' nameKey_length]
      have ht := occursAt_take hoj 6 (by rw [nameNeedle_length]; omega)
      rwa [he6] at ht
    obtain ⟨pre', q', post', hps', hdisj⟩ := nameKey_occ_build hB ps hsafe j ho6
    have hq'mem : q' ∈ ps := by rw [hps']; simp
    have htail := occursAt_drop hoj 6
    rw [nameNeedle_length] at htail
    have hd6 : (nameNeedle q.name).drop 6 = q.name ++ [34] := by
      rw [nameNeedle, List.append_assoc, List.drop_left' nameKey_length]
    rw [hd6] at htail
    have harith : q.name.length + 7 - 6 = q.name.length + 1 := by omega
    rw [harith] at htail
    rcases hdisj with hcan | ⟨f, hfe, hfnpos⟩
    · have hq'34 : 34 ∉ q'.name := (hsafe q' hq'mem).1.1
      have hdropS : (buildBody B ps).drop (j + 6) =
          q'.name ++ (34 :: (fnAttr q'.filename ++ ([13, 10, 13, 10] ++ (q'.content ++
            ([13, 10] ++ buildBody B post'))))) := by
        rw [buildBody_canonical2 B hps']
        refine List.drop_left' ?_
        rw [List.length_append, prelude2Len]
        omega
      rw [hdropS] at htail
      have hnames := tok_eq q.name q'.name _ hq34 hq'34 htail
      obtain ⟨hpp, hqq⟩ := nodup_split_eq ps pre pre' q q' post post' hnd hps hps' hnames
      rw [hpp] at hj
      omega
    · have hf34 : 34 ∉ f := by
        have hok := (hsafe q' hq'mem).2.2.2.2
        rw [hfe] at hok
        exact hok.1.1
      have hdropS : (buildBody B ps).drop (j + 6) =
          f ++ (34 :: ([13, 10, 13, 10] ++ (q'.content ++ ([13, 10] ++
            buildBody B post')))) := by
        rw [buildBody_fn_canonical B hps' hfe]
        refine List.drop_left' ?_
        rw [List.length_append, preludeFnLen]
        omega
      rw [hdropS] at htail
      have hnames := tok_eq q.name f _ hq34 hf34 htail
      have hne := hfn q hqmem q' hq'mem
      rw [hfe] at hne
      exact hne hnames.symm

theorem no_occ_at_byte {body pat : List Nat} {q i : Nat} (ho : occursAt body pat q)
    (h1 : q ≤ i) (h2 : i < q + pat.length) {c : Nat} (hb : body[i]? = some c)
    (hm : c ∉ pat) : False := by
  have hg := occursAt_getElem ho i h1 h2
  rw [hb] at hg
  exact hm (List.getElem?_mem hg.symm)

theorem dashDelim_length (B : List Nat) : (dashDelim B).length = B.length + 2 := by
  simp [dashDelim]

theorem dashDelim_at0 (B : List Nat) : (dashDelim B)[0]? = some 45 := by simp [dashDelim]
theorem dashDelim_at1 (B : List Nat) : (dashDelim B)[1]? = some 45 := by simp [dashDelim]

theorem mem_dashDelim {B : List Nat} {c : Nat} (h : c ∈ dashDelim B) : c = 45 ∨ c ∈ B := by
  simp only [dashDelim, List.mem_append, List.mem_cons] at h
  rcases h with (h | h | h) | h
  · exact Or.inl h
  · exact Or.inl h
  · simp at h
  · exact Or.inr h

theorem buildBody_delim (B : List Nat) {ps pre post : List SrcPart} {q : SrcPart}
    (h : ps = pre ++ q :: post) :
    buildBody B ps = segsFlat B pre ++ dashDelim B ++
      ([13, 10] ++ (hdrOf q ++ ([13, 10, 13, 10] ++ (q.content ++
        ([13, 10] ++ buildBody B post))))) := by
  subst h
  rw [buildBody_append, buildBody_cons]
  simp [partSeg, dashDelim, List.append_assoc]

theorem body_at_delimCRLF (B : List Nat) {ps pre post : List SrcPart} {q : SrcPart}
    (h : ps = pre ++ q :: post) (t : Nat) :
    (buildBody B ps)[(segsFlat B pre).length + B.length + 2 + t]? =
      ([13, 10] ++ (hdrOf q ++ ([13, 10, 13, 10] ++ (q.content ++
        ([13, 10] ++ buildBody B post)))))[t]? := by
  rw [buildBody_delim B h]
  have hg := getElem?_append_mid (segsFlat B pre ++ dashDelim B)
    ([13, 10] ++ (hdrOf q ++ ([13, 10, 13, 10] ++ (q.content ++
      ([13, 10] ++ buildBody B post))))) t
  have hl : (segsFlat B pre ++ dashDelim B).length =
      (segsFlat B pre).length + B.length + 2 := by
    rw [List.length_append, dashDelim_length]
    omega
  rw [hl] at hg
  exact hg

theorem body_at_hdr (B : List Nat) {ps pre post : List SrcPart} {q : SrcPart}
    (h : ps = pre ++ q :: post) (u : Nat) (hu : u < 38) :
    (buildBody B ps)[(segsFlat B pre).length + B.length + 4 + u]? =
      (dispoLit ++ nameKey)[u]? := by
  have he : (segsFlat B pre).length + B.length + 4 + u =
      (segsFlat B pre).length + B.length + 2 + (2 + u) := by omega
  rw [he, body_at_delimCRLF B h]
  have hg := getElem?_append_mid [13, 10]
    (hdrOf q ++ ([13, 10, 13, 10] ++ (q.content ++ ([13, 10] ++ buildBody B post)))) u
  simp only [List.length_cons, List.length_nil] at hg
  rw [hg, List.getElem?_append_left (by rw [hdrOf_length]; omega), hdr_at_low q u hu]

theorem cd_no45pair : ∀ u, u ≤ 32 → ¬((dispoLit ++ nameKey)[u]? = some 45 ∧
    (dispoLit ++ nameKey)[u + 1]? = some 45) := by decide

/-- Searching backward for `--<boundary>` from the name attribute of part
`q` finds the delimiter that opens part `q`. -/
theorem delim_last {B : List Nat} {ps pre post : List SrcPart} {q : SrcPart}
    (hs : safeBuild B ps) (hps : ps = pre ++ q :: post) :
    lastIndexOfSubarray (buildBody B ps) (dashDelim B)
      ((segsFlat B pre).length + B.length + 36) = some (segsFlat B pre).length := by
  obtain ⟨hB, -, -, -⟩ := hs
  have h13 : 13 ∉ dashDelim B := by
    intro hm
    rcases mem_dashDelim hm with h | h
    · omega
    · exact hB.2.1 h
  have h10 : 10 ∉ dashDelim B := by
    intro hm
    rcases mem_dashDelim hm with h | h
    · omega
    · exact hB.2.2 h
  rw [lastIndexOfSubarray_eq_some]
  refine ⟨by omega, ?_, ?_⟩
  · rw [buildBody_delim B hps]
    exact occursAt_append_mid _ _ _
  · intro j hj1 hj2 ho
    have hdl := dashDelim_length B
    by_cases hc1 : j ≤ (segsFlat B pre).length + B.length + 1
    · refine no_occ_at_byte ho (i := (segsFlat B pre).length + B.length + 2)
        (by omega) (by omega) ?_ h13
      have hb := body_at_delimCRLF B hps 0
      simpa using hb
    by_cases hc2 : j = (segsFlat B pre).length + B.length + 2
    · refine no_occ_at_byte ho (i := j) (Nat.le_refl _) (by omega) ?_ h13
      subst hc2
      have hb := body_at_delimCRLF B hps 0
      simpa using hb
    by_cases hc3 : j = (segsFlat B pre).length + B.length + 3
    · refine no_occ_at_byte ho (i := j) (Nat.le_refl _) (by omega) ?_ h10
      have he : j = (segsFlat B pre).length + B.length + 2 + 1 := by omega
      rw [he]
      have hb := body_at_delimCRLF B hps 1
      simpa using hb
    · have hu : j - ((segsFlat B pre).length + B.length + 4) ≤ 32 := by omega
      apply cd_no45pair (j - ((segsFlat B pre).length + B.length + 4)) hu
      have hb0 := occursAt_getElem ho j (Nat.le_refl _) (by omega)
      have hb1 := occursAt_getElem ho (j + 1) (by omega) (by omega)
      have he0 : j - j = 0 := by omega
      have he1 : j + 1 - j = 1 := by omega
      rw [he0, dashDelim_at0] at hb0
      rw [he1, dashDelim_at1] at hb1
      constructor
      · have hj0 : j = (segsFlat B pre).length + B.length + 4 +
            (j - ((segsFlat B pre).length + B.length + 4)) := by omega
        rw [← body_at_hdr B hps _ (by omega), ← hj0]
        exact hb0
      · have hj1' : j + 1 = (segsFlat B pre).length + B.length + 4 +
            (j - ((segsFlat B pre).length + B.length + 4) + 1) := by omega
        rw [← body_at_hdr B hps _ (by omega), ← hj1']
        exact hb1

theorem getD_of_getElem? {l : List Nat} {i c : Nat} (h : l[i]? = some c) :
    l.getD i 0 = c := by
  rw [List.getD_eq_getElem?_getD, h]
  rfl

/-- After the delimiter of part `q`, `skipCRLF` steps over the CRLF that
precedes the header line. -/
theorem skip_step (B : List Nat) {ps pre post : List SrcPart} {q : SrcPart}
    (h : ps = pre ++ q :: post) :
    skipCRLF (buildBody B ps) ((segsFlat B pre).length + (dashDelim B).length) =
      (segsFlat B pre).length + B.length + 4 := by
  have h13 : (buildBody B ps).getD ((segsFlat B pre).length + B.length + 2) 0 = 13 :=
    getD_of_getElem? (by simpa using body_at_delimCRLF B h 0)
  have h10 : (buildBody B ps).getD ((segsFlat B pre).length + B.length + 2 + 1) 0 = 10 :=
    getD_of_getElem? (by simpa using body_at_delimCRLF B h 1)
  unfold skipCRLF
  rw [dashDelim_length]
  have he : (segsFlat B pre).length + (B.length + 2) =
      (segsFlat B pre).length + B.length + 2 := by omega
  rw [he, h13, h10]
  simp

theorem hem_at0 : headerEndMarker[0]? = some 13 := rfl

/-- A header line contains no CR byte. -/
theorem no13_hdr {q : SrcPart} (hc : cleanToken q.name) (hf : fnameOk q.filename) :
    13 ∉ hdrOf q := by
  intro hm
  simp only [hdrOf, List.mem_append, List.mem_cons] at hm
  have hd : (13 : Nat) ∉ dispoLit := by decide
  have hk : (13 : Nat) ∉ nameKey := by decide
  rcases hm with (((h | h) | h) | h) | h
  · exact hd h
  · exact hk h
  · exact hc.2.1 h
  · simp at h
  · rcases hfo : q.filename with _ | f
    · rw [hfo] at h
      simp [fnAttr] at h
    · rw [hfo] at h hf
      simp only [fnAttr, List.mem_append, List.mem_cons] at h
      have hfl : (13 : Nat) ∉ fnameLit := by decide
      rcases h with (h | h) | h
      · exact hfl h
      · exact hf.1.2.1 h
      · simp at h

theorem buildBody_hem (B : List Nat) {ps pre post : List SrcPart} {q : SrcPart}
    (h : ps = pre ++ q :: post) :
    buildBody B ps = (segsFlat B pre ++ ([45, 45] ++ B ++ [13, 10]) ++ hdrOf q) ++
      headerEndMarker ++ (q.content ++ ([13, 10] ++ buildBody B post)) := by
  subst h
  rw [buildBody_append, buildBody_cons]
  simp [partSeg, headerEndMarker, List.append_assoc]

theorem hemPreLen (B : List Nat) {ps pre post : List SrcPart} {q : SrcPart}
    (_ : ps = pre ++ q :: post) :
    (segsFlat B pre ++ ([45, 45] ++ B ++ [13, 10]) ++ hdrOf q).length =
      (segsFlat B pre).length + B.length + 4 + (hdrOf q).length := by
  simp only [List.length_append]
  simp
  omega

theorem body_at_hdrF (B : List Nat) {ps pre post : List SrcPart} {q : SrcPart}
    (h : ps = pre ++ q :: post) (u : Nat) (hu : u < (hdrOf q).length) :
    (buildBody B ps)[(segsFlat B pre).length + B.length + 4 + u]? = (hdrOf q)[u]? := by
  have he : (segsFlat B pre).length + B.length + 4 + u =
      (segsFlat B pre).length + B.length + 2 + (2 + u) := by omega
  rw [he, body_at_delimCRLF B h]
  have hg := getElem?_append_mid [13, 10]
    (hdrOf q ++ ([13, 10, 13, 10] ++ (q.content ++ ([13, 10] ++ buildBody B post)))) u
  simp only [List.length_cons, List.length_nil] at hg
  rw [hg, List.getElem?_append_left hu]

/-- The first `CRLF CRLF` at or after the header start of part `q` is the
one that terminates its header line. -/
theorem hem_first (B : List Nat) {ps pre post : List SrcPart} {q : SrcPart}
    (hs : safeBuild B ps) (hps : ps = pre ++ q :: post) :
    indexOfSubarray (buildBody B ps) headerEndMarker
      ((segsFlat B pre).length + B.length + 4) =
      some ((segsFlat B pre).length + B.length + 4 + (hdrOf q).length) := by
  obtain ⟨hB, -, hsafe, -⟩ := hs
  have hqmem : q ∈ ps := by rw [hps]; simp
  have hno13 : 13 ∉ hdrOf q := no13_hdr (hsafe q hqmem).1 (hsafe q hqmem).2.2.2.2
  rw [indexOfSubarray_eq_some]
  refine ⟨by omega, ?_, ?_⟩
  · rw [buildBody_hem B hps, ← hemPreLen B hps]
    exact occursAt_append_mid _ _ _
  · intro j hj1 hj2 ho
    have hu : j - ((segsFlat B pre).length + B.length + 4) < (hdrOf q).length := by omega
    have hb := occursAt_getElem ho j (Nat.le_refl _) (by simp [headerEndMarker])
    have he0 : j - j = 0 := by omega
    rw [he0, hem_at0] at hb
    have hj0 : j = (segsFlat B pre).length + B.length + 4 +
        (j - ((segsFlat B pre).length + B.length + 4)) := by omega
    rw [hj0, body_at_hdrF B hps _ hu] at hb
    exact hno13 (List.getElem?_mem hb)

theorem crlfDelim_length (B : List Nat) : (crlfDelim B).length = B.length + 4 := by
  simp [crlfDelim]

theorem crlfDelim_no13_tail {B : List Nat} (h13 : 13 ∉ B) :
    ∀ t, 1 ≤ t → (crlfDelim B)[t]? ≠ some 13 := by
  intro t ht hc
  by_cases h4 : t < 4
  · interval_cases t <;> simp [crlfDelim] at hc
  · have hg : (crlfDelim B)[t]? = B[t - 4]? := by
      show ([13, 10, 45, 45] ++ B)[t]? = B[t - 4]?
      rw [List.getElem?_append_right (by simp only [List.length_cons, List.length_nil]; omega)]
      congr 1
    rw [hg] at hc
    exact h13 (List.getElem?_mem hc)

theorem buildBody_startShape (B : List Nat) (post : List SrcPart) :
    ∃ rest, buildBody B post = [45, 45] ++ B ++ rest := by
  cases post with
  | nil =>
    exact ⟨[45, 45], rfl⟩
  | cons p ps =>
    refine ⟨[13, 10] ++ (hdrOf p ++ ([13, 10, 13, 10] ++ (p.content ++
      ([13, 10] ++ buildBody B ps)))), ?_⟩
    rw [buildBody_cons]
    simp [partSeg, List.append_assoc]

theorem buildBody_content (B : List Nat) {ps pre post : List SrcPart} {q : SrcPart}
    (h : ps = pre ++ q :: post) :
    buildBody B ps =
      (segsFlat B pre ++ ([45, 45] ++ B ++ [13, 10]) ++ hdrOf q ++ [13, 10, 13, 10]) ++
      (q.content ++ ([13, 10] ++ buildBody B post)) := by
  subst h
  rw [buildBody_append, buildBody_cons]
  simp [partSeg, List.append_assoc]

theorem contentPreLen (B : List Nat) {ps pre post : List SrcPart} {q : SrcPart}
    (_ : ps = pre ++ q :: post) :
    (segsFlat B pre ++ ([45, 45] ++ B ++ [13, 10]) ++ hdrOf q ++ [13, 10, 13, 10]).length =
      (segsFlat B pre).length + B.length + 8 + (hdrOf q).length := by
  simp only [List.length_append]
  simp
  omega

/-- The first `CRLF--<boundary>` at or after the content start of part `q`
is the one that closes its content. -/
theorem crlf_first (B : List Nat) {ps pre post : List SrcPart} {q : SrcPart}
    (hs : safeBuild B ps) (hps : ps = pre ++ q :: post) :
    indexOfSubarray (buildBody B ps) (crlfDelim B)
      ((segsFlat B pre).length + B.length + 8 + (hdrOf q).length) =
      some ((segsFlat B pre).length + B.length + 8 + (hdrOf q).length + q.content.length) := by
  obtain ⟨hB, -, hsafe, -⟩ := hs
  have hqmem : q ∈ ps := by rw [hps]; simp
  have hnosub : ¬ hasSub q.content (crlfDelim B) := (hsafe q hqmem).2.2.2.1
  obtain ⟨rest, hrest⟩ := buildBody_startShape B post
  have hCP := contentPreLen B hps
  have hsplit : buildBody B ps =
      (segsFlat B pre ++ ([45, 45] ++ B ++ [13, 10]) ++ hdrOf q ++ [13, 10, 13, 10]) ++
      (q.content ++ (crlfDelim B ++ rest)) := by
    rw [buildBody_content B hps, hrest]
    simp [crlfDelim, List.append_assoc]
  rw [indexOfSubarray_eq_some]
  refine ⟨by omega, ?_, ?_⟩
  · have hsplit2 : buildBody B ps =
        ((segsFlat B pre ++ ([45, 45] ++ B ++ [13, 10]) ++ hdrOf q ++ [13, 10, 13, 10]) ++
          q.content) ++ crlfDelim B ++ rest := by
      rw [hsplit]
      simp [List.append_assoc]
    rw [hsplit2]
    have hl : (((segsFlat B pre ++ ([45, 45] ++ B ++ [13, 10]) ++ hdrOf q ++
        [13, 10, 13, 10]) ++ q.content)).length =
        (segsFlat B pre).length + B.length + 8 + (hdrOf q).length + q.content.length := by
      rw [List.length_append, hCP]
    rw [← hl]
    exact occursAt_append_mid _ _ _
  · intro j hj1 hj2 ho
    rw [hsplit] at ho
    have hoR := occursAt_append_right ho (by omega)
    rw [hCP] at hoR
    by_cases hin : (j - ((segsFlat B pre).length + B.length + 8 + (hdrOf q).length)) +
        (crlfDelim B).length ≤ q.content.length
    · exact hnosub ⟨_, occursAt_append_left hoR hin⟩
    · have hb := occursAt_getElem hoR q.content.length (by omega)
        (by rw [crlfDelim_length] at hin ⊢; omega)
      have hg : (q.content ++ (crlfDelim B ++ rest))[q.content.length]? = some 13 := by
        have hm := getElem?_append_mid q.content (crlfDelim B ++ rest) 0
        rw [Nat.add_zero] at hm
        rw [hm]
        simp [crlfDelim]
      rw [hg] at hb
      refine crlfDelim_no13_tail hB.2.1
        (q.content.length - (j - ((segsFlat B pre).length + B.length + 8 + (hdrOf q).length)))
        (by omega) hb.symm

theorem buildBody_hdrSplit (B : List Nat) {ps pre post : List SrcPart} {q : SrcPart}
    (h : ps = pre ++ q :: post) :
    buildBody B ps = (segsFlat B pre ++ ([45, 45] ++ B ++ [13, 10])) ++
      (hdrOf q ++ ([13, 10, 13, 10] ++ (q.content ++ ([13, 10] ++ buildBody B post)))) := by
  subst h
  rw [buildBody_append, buildBody_cons]
  simp [partSeg, List.append_assoc]

theorem headersText_eq (B : List Nat) {ps pre post : List SrcPart} {q : SrcPart}
    (hps : ps = pre ++ q :: post) :
    ((buildBody B ps).drop ((segsFlat B pre).length + B.length + 4)).take
      ((hdrOf q).length) = hdrOf q := by
  rw [buildBody_hdrSplit B hps,
    List.drop_left' (by simp only [List.length_append]; simp; omega)]
  rw [List.take_left' rfl]

theorem content_slice (B : List Nat) {ps pre post : List SrcPart} {q : SrcPart}
    (hps : ps = pre ++ q :: post) :
    ((buildBody B ps).drop ((segsFlat B pre).length + B.length + 8 + (hdrOf q).length)).take
      q.content.length = q.content := by
  rw [buildBody_content B hps, List.drop_left' (contentPreLen B hps)]
  have hsh : q.content ++ ([13, 10] ++ buildBody B post) =
      q.content ++ [13, 10] ++ buildBody B post := by
    simp [List.append_assoc]
  rw [hsh, List.append_assoc q.content, List.take_left' rfl]

/-! ### Step-wise characterization of the named extractors -/

theorem textField_succ (body boundary fieldName : List Nat)
    (namePos partStart headersEnd contentEnd : Nat)
    (h1 : indexOfSubarray body (nameNeedle fieldName) 0 = some namePos)
    (h2 : lastIndexOfSubarray body (dashDelim boundary) namePos = some partStart)
    (h3 : indexOfSubarray body headerEndMarker
      (skipCRLF body (partStart + (dashDelim boundary).length)) = some headersEnd)
    (h4 : indexOfSubarray body (crlfDelim boundary) (headersEnd + headerEndMarker.length)
      = some contentEnd) :
    extractMultipartTextField body boundary fieldName =
      trimBytes ((body.drop (headersEnd + headerEndMarker.length)).take
        (contentEnd - (headersEnd + headerEndMarker.length))) := by
  simp only [extractMultipartTextField, h1, h2, h3, h4]

theorem textField_fail1 (body boundary fieldName : List Nat)
    (h1 : indexOfSubarray body (nameNeedle fieldName) 0 = none) :
    extractMultipartTextField body boundary fieldName = [] := by
  simp only [extractMultipartTextField, h1]

theorem textField_fail2 (body boundary fieldName : List Nat) (namePos : Nat)
    (h1 : indexOfSubarray body (nameNeedle fieldName) 0 = some namePos)
    (h2 : lastIndexOfSubarray body (dashDelim boundary) namePos = none) :
    extractMultipartTextField body boundary fieldName = [] := by
  simp only [extractMultipartTextField, h1, h2]

theorem textField_fail3 (body boundary fieldName : List Nat) (namePos partStart : Nat)
    (h1 : indexOfSubarray body (nameNeedle fieldName) 0 = some namePos)
    (h2 : lastIndexOfSubarray body (dashDelim boundary) namePos = some partStart)
    (h3 : indexOfSubarray body headerEndMarker
      (skipCRLF body (partStart + (dashDelim boundary).length)) = none) :
    extractMultipartTextField body boundary fieldName = [] := by
  simp only [extractMultipartTextField, h1, h2, h3]

theorem textField_fail4 (body boundary fieldName : List Nat)
    (namePos partStart headersEnd : Nat)
    (h1 : indexOfSubarray body (nameNeedle fieldName) 0 = some namePos)
    (h2 : lastIndexOfSubarray body (dashDelim boundary) namePos = some partStart)
    (h3 : indexOfSubarray body headerEndMarker
      (skipCRLF body (partStart + (dashDelim boundary).length)) = some headersEnd)
    (h4 : indexOfSubarray body (crlfDelim boundary) (headersEnd + headerEndMarker.length)
      = none) :
    extractMultipartTextField body boundary fieldName = [] := by
  simp only [extractMultipartTextField, h1, h2, h3, h4]

theorem filePart_succ (body boundary fieldName : List Nat)
    (namePos partStart headersEnd contentEnd : Nat)
    (h1 : indexOfSubarray body (nameNeedle fieldName) 0 = some namePos)
    (h2 : lastIndexOfSubarray body (dashDelim boundary) namePos = some partStart)
    (h3 : indexOfSubarray body headerEndMarker
      (skipCRLF body (partStart + (dashDelim boundary).length)) = some headersEnd)
    (h4 : indexOfSubarray body (crlfDelim boundary) (headersEnd + headerEndMarker.length)
      = some contentEnd) :
    extractMultipartFilePart body boundary fieldName =
      some ⟨(match regexFirstMatch
              ((body.drop (skipCRLF body (partStart + (dashDelim boundary).length))).take
                (headersEnd - skipCRLF body (partStart + (dashDelim boundary).length)))
              filenameKey with
             | some v => basename v
             | none => []),
            (body.drop (headersEnd + headerEndMarker.length)).take
              (contentEnd - (headersEnd + headerEndMarker.length))⟩ := by
  simp only [extractMultipartFilePart, h1, h2, h3, h4]

theorem filePart_fail4 (body boundary fieldName : List Nat)
    (namePos partStart headersEnd : Nat)
    (h1 : indexOfSubarray body (nameNeedle fieldName) 0 = some namePos)
    (h2 : lastIndexOfSubarray body (dashDelim boundary) namePos = some partStart)
    (h3 : indexOfSubarray body headerEndMarker
      (skipCRLF body (partStart + (dashDelim boundary).length)) = some headersEnd)
    (h4 : indexOfSubarray body (crlfDelim boundary) (headersEnd + headerEndMarker.length)
      = none) :
    extractMultipartFilePart body boundary fieldName = none := by
  simp only [extractMultipartFilePart, h1, h2, h3, h4]

/-! ### Characterization of the attribute regex scan -/

theorem regexAux_of_first {hdr pat : List Nat} :
    ∀ k i i0 v, i ≤ i0 → i0 < i + k → attrCaptureAt hdr pat i0 = some v →
      (∀ j, i ≤ j → j < i0 → attrCaptureAt hdr pat j = none) →
      regexFirstMatchAux hdr pat i k = some v := by
  intro k
  induction k with
  | zero => intro i i0 v h1 h2; omega
  | succ m ih =>
    intro i i0 v h1 h2 h3 h4
    rw [regexFirstMatchAux]
    rcases Nat.eq_or_lt_of_le h1 with he | hl
    · subst he
      rw [h3]
    · rw [h4 i (Nat.le_refl _) hl]
      exact ih (i + 1) i0 v hl (by omega) h3 fun j hj1 hj2 => h4 j (by omega) hj2

theorem regexAux_none {hdr pat : List Nat} :
    ∀ k i, (∀ j, i ≤ j → j < i + k → attrCaptureAt hdr pat j = none) →
      regexFirstMatchAux hdr pat i k = none := by
  intro k
  induction k with
  | zero => intro i _; rfl
  | succ m ih =>
    intro i hall
    rw [regexFirstMatchAux, hall i (Nat.le_refl _) (by omega)]
    exact ih (i + 1) fun j hj1 hj2 => hall j (by omega) (by omega)

theorem regexFirstMatch_of_first {hdr pat : List Nat} {i0 : Nat} {v : List Nat}
    (hb : i0 ≤ hdr.length) (h3 : attrCaptureAt hdr pat i0 = some v)
    (h4 : ∀ j, j < i0 → attrCaptureAt hdr pat j = none) :
    regexFirstMatch hdr pat = some v :=
  regexAux_of_first _ 0 i0 v (Nat.zero_le _) (by omega) h3 fun j _ => h4 j

theorem regexFirstMatch_none {hdr pat : List Nat}
    (hall : ∀ j, attrCaptureAt hdr pat j = none) :
    regexFirstMatch hdr pat = none :=
  regexAux_none _ 0 fun j _ _ => hall j

theorem matchesAt_true_occurs {h n : List Nat} {i : Nat} (hn : n ≠ [])
    (hm : matchesAt h n i = true) : occursAt h n i := by
  unfold matchesAt at hm
  rw [beq_iff_eq] at hm
  have hlen : ((h.drop i).take n.length).length = n.length := by rw [hm]
  simp only [List.length_take, List.length_drop] at hlen
  have hpos : 0 < n.length := by
    cases n with
    | nil => exact absurd rfl hn
    | cons a t => simp
  exact ⟨by omega, hm⟩

theorem toLowerByte34 {b : Nat} : toLowerByte b = 34 ↔ b = 34 := by
  unfold toLowerByte
  split <;> omega

theorem toLowerByte61 {b : Nat} : toLowerByte b = 61 ↔ b = 61 := by
  unfold toLowerByte
  split <;> omega

theorem lower_getElem (hdr : List Nat) (i : Nat) :
    (hdr.map toLowerByte)[i]? = (hdr[i]?).map toLowerByte :=
  List.getElem?_map toLowerByte hdr i

theorem lower34_iff {hdr : List Nat} {i : Nat} :
    (hdr.map toLowerByte)[i]? = some 34 ↔ hdr[i]? = some 34 := by
  rw [lower_getElem]
  rcases hb : hdr[i]? with _ | b
  · simp
  · show some (toLowerByte b) = some 34 ↔ some b = some 34
    simp only [Option.some.injEq]
    exact toLowerByte34

theorem filenameKey_at9 : filenameKey[9]? = some 34 := by decide
theorem filenameKey_at0 : filenameKey[0]? = some 102 := by decide
theorem filenameKey_at8 : filenameKey[8]? = some 61 := by decide
theorem filenameKey_low_ne34 : ∀ j, j ≤ 8 → filenameKey[j]? ≠ some 34 := by decide
theorem filenameKey_length : filenameKey.length = 10 := by decide

theorem takeWhile_token {nm X : List Nat} (h34 : 34 ∉ nm) :
    (nm ++ (34 :: X)).takeWhile (fun b => b != 34) = nm := by
  induction nm with
  | nil => simp [List.takeWhile_cons]
  | cons a t ih =>
    have ha : a ≠ 34 := fun he => h34 (he ▸ List.mem_cons_self a t)
    have ht := ih fun hm => h34 (List.mem_cons_of_mem _ hm)
    simp only [List.cons_append, List.takeWhile_cons]
    rw [if_pos (by simpa using ha), ht]

theorem nameKey_capture_at32 {q : SrcPart} (hc : cleanToken q.name) (hne : q.name ≠ []) :
    attrCaptureAt (hdrOf q) nameKey 32 = some q.name := by
  have hmatch : matchesAt ((hdrOf q).map toLowerByte) nameKey 32 = true := by
    unfold matchesAt
    rw [beq_iff_eq, hdrOf_eq, List.map_append,
      List.drop_append_of_le_length (by rw [List.length_map, cdKey_length]; omega),
      nameKey_length,
      List.take_append_of_le_length (by rw [List.length_drop, List.length_map, cdKey_length]),
      show (((dispoLit ++ nameKey).map toLowerByte).drop 32).take 6 = nameKey from by decide]
  simp only [attrCaptureAt, hmatch, if_true]
  have hrest : (hdrOf q).drop (32 + nameKey.length) = q.name ++ (34 :: fnAttr q.filename) := by
    rw [nameKey_length]
    show (hdrOf q).drop 38 = q.name ++ (34 :: fnAttr q.filename)
    rw [hdrOf_eq, List.drop_left' cdKey_length]
    rfl
  rw [hrest, takeWhile_token hc.1]
  rw [if_pos]
  constructor
  · simpa using hne
  · simp

theorem nameKey_capture_early {q : SrcPart} (hc : cleanToken q.name) (hf : fnameOk q.filename) :
    ∀ i, i < 32 → attrCaptureAt (hdrOf q) nameKey i = none := by
  intro i hi
  unfold attrCaptureAt
  rw [if_neg]
  intro hm
  have ho := matchesAt_true_occurs (by decide : nameKey ≠ []) hm
  have h34 : (hdrOf q)[i + 5]? = some 34 := by
    have hb := occursAt_getElem ho (i + 5) (by omega) (by rw [nameKey_length]; omega)
    have he : i + 5 - i = 5 := by omega
    rw [he, nameKey_at5] at hb
    exact lower34_iff.1 hb
  rcases hdr_quote_pos hc hf (i + 5) h34 with h | h | ⟨f, _, h | h⟩ <;> omega

theorem name_capture {q : SrcPart} (hc : cleanToken q.name) (hne : q.name ≠ [])
    (hf : fnameOk q.filename) :
    regexFirstMatch (hdrOf q) nameKey = some q.name := by
  refine regexFirstMatch_of_first ?_ (nameKey_capture_at32 hc hne) ?_
  · rw [hdrOf_length]
    omega
  · exact fun j hj => nameKey_capture_early hc hf j hj

theorem lowered_at28 (q : SrcPart) : ((hdrOf q).map toLowerByte)[28]? = some 116 := by
  rw [lower_getElem, hdr_at_low q 28 (by omega),
    show (dispoLit ++ nameKey)[28]? = some 116 from by decide]
  decide

theorem lowered_at37 (q : SrcPart) : ((hdrOf q).map toLowerByte)[37]? = some 34 := by
  rw [lower_getElem, hdr_at_37]
  decide

/-- No attempt of the `filename="…"` regex succeeds strictly before the
filename attribute (and nowhere at all if there is none). -/
theorem filenameKey_early {q : SrcPart} (hc : cleanToken q.name) (hf : fnameOk q.filename) :
    ∀ i, i + 9 < 50 + q.name.length → attrCaptureAt (hdrOf q) filenameKey i = none := by
  intro i hi
  unfold attrCaptureAt
  rw [if_neg]
  intro hm
  have ho := matchesAt_true_occurs (by decide : filenameKey ≠ []) hm
  have h34 : (hdrOf q)[i + 9]? = some 34 := by
    have hb := occursAt_getElem ho (i + 9) (by omega) (by rw [filenameKey_length]; omega)
    have he : i + 9 - i = 9 := by omega
    rw [he, filenameKey_at9] at hb
    exact lower34_iff.1 hb
  rcases hdr_quote_pos hc hf (i + 9) h34 with h37 | hcl | ⟨f, _, h | h⟩
  · -- i = 28 : the byte under the pattern head is `t`, not `f`
    have hb := occursAt_getElem ho 28 (by omega) (by rw [filenameKey_length]; omega)
    have he : 28 - i = 0 := by omega
    rw [he, lowered_at28, filenameKey_at0] at hb
    exact absurd hb (by decide)
  · -- i = 29 + |name|
    by_cases hn : q.name.length ≤ 8
    · have hb := occursAt_getElem ho 37 (by omega) (by rw [filenameKey_length]; omega)
      rw [lowered_at37] at hb
      exact filenameKey_low_ne34 (37 - i) (by omega) hb.symm
    · have hb := occursAt_getElem ho (i + 8) (by omega) (by rw [filenameKey_length]; omega)
      have he : i + 8 - i = 8 := by omega
      rw [he, filenameKey_at8] at hb
      have he2 : i + 8 = 38 + (q.name.length - 1) := by omega
      rw [he2, lower_getElem, hdr_at_name q _ (by omega)] at hb
      rcases hq : q.name[q.name.length - 1]? with _ | b
      · rw [hq] at hb
        exact absurd hb (by simp)
      · rw [hq] at hb
        have hbl : toLowerByte b = 61 := by
          have : some (toLowerByte b) = some 61 := hb
          injection this
        exact hc.2.2.2 (toLowerByte61.1 hbl ▸ List.getElem?_mem hq)
  · omega
  · omega

theorem fname_none {q : SrcPart} (hc : cleanToken q.name) (hfn : q.filename = none) :
    regexFirstMatch (hdrOf q) filenameKey = none := by
  apply regexFirstMatch_none
  intro j
  unfold attrCaptureAt
  rw [if_neg]
  intro hm
  have ho := matchesAt_true_occurs (by decide : filenameKey ≠ []) hm
  have h34 : (hdrOf q)[j + 9]? = some 34 := by
    have hb := occursAt_getElem ho (j + 9) (by omega) (by rw [filenameKey_length]; omega)
    have he : j + 9 - j = 9 := by omega
    rw [he, filenameKey_at9] at hb
    exact lower34_iff.1 hb
  have hfok : fnameOk q.filename := by rw [hfn]; trivial
  rcases hdr_quote_pos hc hfok (j + 9) h34 with h37 | hcl | ⟨f, hfe, _⟩
  · have hb := occursAt_getElem ho 28 (by omega) (by rw [filenameKey_length]; omega)
    have he : 28 - j = 0 := by omega
    rw [he, lowered_at28, filenameKey_at0] at hb
    exact absurd hb (by decide)
  · by_cases hn : q.name.length ≤ 8
    · have hb := occursAt_getElem ho 37 (by omega) (by rw [filenameKey_length]; omega)
      rw [lowered_at37] at hb
      exact filenameKey_low_ne34 (37 - j) (by omega) hb.symm
    · have hb := occursAt_getElem ho (j + 8) (by omega) (by rw [filenameKey_length]; omega)
      have he : j + 8 - j = 8 := by omega
      rw [he, filenameKey_at8] at hb
      have he2 : j + 8 = 38 + (q.name.length - 1) := by omega
      rw [he2, lower_getElem, hdr_at_name q _ (by omega)] at hb
      rcases hq : q.name[q.name.length - 1]? with _ | b
      · rw [hq] at hb
        exact absurd hb (by simp)
      · rw [hq] at hb
        have hbl : toLowerByte b = 61 := by
          have : some (toLowerByte b) = some 61 := hb
          injection this
        exact hc.2.2.2 (toLowerByte61.1 hbl ▸ List.getElem?_mem hq)
  · rw [hfn] at hfe
    exact absurd hfe (by simp)

theorem hdrOf_fn_eq {q : SrcPart} {f : List Nat} (hf : q.filename = some f) :
    hdrOf q = (dispoLit ++ nameKey ++ q.name ++ [34] ++ ascii ("; ")) ++
      (filenameKey ++ (f ++ [34])) := by
  have hfl : fnameLit = ascii ("; ") ++ filenameKey := by decide
  simp [hdrOf, fnAttr, hf, hfl, List.append_assoc]

theorem fnPrefLen (q : SrcPart) :
    (dispoLit ++ nameKey ++ q.name ++ [34] ++ ascii ("; ")).length = 41 + q.name.length := by
  have h2 : (ascii ("; ")).length = 2 := by decide
  simp only [List.length_append, dispoLit_length, nameKey_length, h2]
  simp
  omega

theorem filenameKey_capture_canonical {q : SrcPart} {f : List Nat} (hf : q.filename = some f)
    (h34 : 34 ∉ f) (hne : f ≠ []) :
    attrCaptureAt (hdrOf q) filenameKey (41 + q.name.length) = some f := by
  have hpre := fnPrefLen q
  have hmatch : matchesAt ((hdrOf q).map toLowerByte) filenameKey (41 + q.name.length)
      = true := by
    unfold matchesAt
    rw [beq_iff_eq, hdrOf_fn_eq hf, List.map_append,
      List.drop_left' (by rw [List.length_map, hpre]), List.map_append, filenameKey_length,
      List.take_append_of_le_length (by rw [List.length_map, filenameKey_length]),
      show (filenameKey.map toLowerByte).take 10 = filenameKey from by decide]
  simp only [attrCaptureAt, hmatch, if_true]
  have hrest : (hdrOf q).drop (41 + q.name.length + filenameKey.length) = f ++ (34 :: []) := by
    rw [filenameKey_length]
    have he : 41 + q.name.length + 10 = 51 + q.name.length := by omega
    rw [he, hdrOf_fn_eq hf,
      show (dispoLit ++ nameKey ++ q.name ++ [34] ++ ascii ("; ")) ++
          (filenameKey ++ (f ++ [34]))
        = ((dispoLit ++ nameKey ++ q.name ++ [34] ++ ascii ("; ")) ++ filenameKey) ++
          (f ++ [34]) from by simp [List.append_assoc],
      List.drop_left' (by rw [List.length_append, hpre, filenameKey_length]; omega)]
  rw [hrest, takeWhile_token h34, if_pos]
  constructor
  · simpa using hne
  · simp

theorem fname_capture {q : SrcPart} {f : List Nat} (hc : cleanToken q.name)
    (hf : q.filename = some f) (hfok : fnameOk q.filename) :
    regexFirstMatch (hdrOf q) filenameKey = some f := by
  have hfok2 : cleanToken f ∧ f ≠ [] ∧ 47 ∉ f := by rw [hf] at hfok; exact hfok
  refine regexFirstMatch_of_first ?_
    (filenameKey_capture_canonical hf hfok2.1.1 hfok2.2.1) ?_
  · rw [hdrOf_length, hf, fnAttr_length_some]
    omega
  · intro j hj
    exact filenameKey_early hc hfok j (by omega)

theorem basename_noslash {v : List Nat} (h : 47 ∉ v) : basename v = v := by
  show ((List.splitOnP (fun b => b == 47) v).getLastD []) = v
  rw [List.splitOnP_eq_single]
  · rfl
  · intro x hx
    simp only [beq_iff_eq]
    exact fun he => h (he ▸ hx)

theorem hemLen4 : headerEndMarker.length = 4 := rfl

/-- Text-field extraction on a safely built body recovers the (trimmed)
content of the named part. -/
theorem textField_on_build {B : List Nat} {ps pre post : List SrcPart} {q : SrcPart}
    (hs : safeBuild B ps) (hps : ps = pre ++ q :: post) :
    extractMultipartTextField (buildBody B ps) B q.name = trimBytes q.content := by
  have h1 := needle_first hs hps
  have h2 := delim_last hs hps
  have h3 : indexOfSubarray (buildBody B ps) headerEndMarker
      (skipCRLF (buildBody B ps) ((segsFlat B pre).length + (dashDelim B).length)) =
      some ((segsFlat B pre).length + B.length + 4 + (hdrOf q).length) := by
    rw [skip_step B hps]
    exact hem_first B hs hps
  have harr : (segsFlat B pre).length + B.length + 4 + (hdrOf q).length +
      headerEndMarker.length =
      (segsFlat B pre).length + B.length + 8 + (hdrOf q).length := by
    rw [hemLen4]
    omega
  have h4 : indexOfSubarray (buildBody B ps) (crlfDelim B)
      ((segsFlat B pre).length + B.length + 4 + (hdrOf q).length + headerEndMarker.length) =
      some ((segsFlat B pre).length + B.length + 8 + (hdrOf q).length + q.content.length) := by
    rw [harr]
    exact crlf_first B hs hps
  have hres := textField_succ (buildBody B ps) B q.name _ _ _ _ h1 h2 h3 h4
  rw [hres, harr]
  have hsub : (segsFlat B pre).length + B.length + 8 + (hdrOf q).length + q.content.length -
      ((segsFlat B pre).length + B.length + 8 + (hdrOf q).length) = q.content.length := by
    omega
  rw [hsub, content_slice B hps]

/-- File-part extraction on a safely built body recovers the filename and
the exact content bytes of the named part. -/
theorem filePart_on_build {B : List Nat} {ps pre post : List SrcPart} {q : SrcPart}
    {f : List Nat} (hs : safeBuild B ps) (hps : ps = pre ++ q :: post)
    (hf : q.filename = some f) :
    extractMultipartFilePart (buildBody B ps) B q.name = some ⟨f, q.content⟩ := by
  have hqmem : q ∈ ps := by rw [hps]; simp
  have hsafeq := hs.2.2.1 q hqmem
  have hfok : fnameOk q.filename := hsafeq.2.2.2.2
  have hfok2 : cleanToken f ∧ f ≠ [] ∧ 47 ∉ f := by rw [hf] at hfok; exact hfok
  have h1 := needle_first hs hps
  have h2 := delim_last hs hps
  have h3 : indexOfSubarray (buildBody B ps) headerEndMarker
      (skipCRLF (buildBody B ps) ((segsFlat B pre).length + (dashDelim B).length)) =
      some ((segsFlat B pre).length + B.length + 4 + (hdrOf q).length) := by
    rw [skip_step B hps]
    exact hem_first B hs hps
  have harr : (segsFlat B pre).length + B.length + 4 + (hdrOf q).length +
      headerEndMarker.length =
      (segsFlat B pre).length + B.length + 8 + (hdrOf q).length := by
    rw [hemLen4]
    omega
  have h4 : indexOfSubarray (buildBody B ps) (crlfDelim B)
      ((segsFlat B pre).length + B.length + 4 + (hdrOf q).length + headerEndMarker.length) =
      some ((segsFlat B pre).length + B.length + 8 + (hdrOf q).length + q.content.length) := by
    rw [harr]
    exact crlf_first B hs hps
  have hres := filePart_succ (buildBody B ps) B q.name _ _ _ _ h1 h2 h3 h4
  rw [hres, skip_step B hps]
  have hsub2 : (segsFlat B pre).length + B.length + 4 + (hdrOf q).length -
      ((segsFlat B pre).length + B.length + 4) = (hdrOf q).length := by
    omega
  rw [hsub2, headersText_eq B hps, fname_capture hsafeq.1 hf hfok]
  rw [harr]
  have hsub : (segsFlat B pre).length + B.length + 8 + (hdrOf q).length + q.content.length -
      ((segsFlat B pre).length + B.length + 8 + (hdrOf q).length) = q.content.length := by
    omega
  rw [hsub, content_slice B hps]
  simp [basename_noslash hfok2.2.2]

/-! ### Concrete demonstration data -/

/-- A short boundary for the concrete instances. -/
def demoB : List Nat := ascii ("bnd")

def demoLog : SrcPart := ⟨ascii ("LOGFILE"), some (ascii ("a.log.gz")), [31, 139, 3]⟩

def demoSN : SrcPart := ⟨ascii ("SERIALNUMBER"), none, ascii ("12345")⟩

def demoParts : List SrcPart := [demoLog, demoSN]

def demoBody : List Nat := buildBody demoB demoParts

example : safeBuild demoB demoParts := by decide
example : extractMultipartTextField demoBody demoB (ascii ("SERIALNUMBER"))
    = ascii ("12345") := by decide
example : extractMultipartFilePart demoBody demoB (ascii ("LOGFILE"))
    = some ⟨ascii ("a.log.gz"), [31, 139, 3]⟩ := by decide
example : extractAllMultipartFileParts demoBody demoB
    = [⟨ascii ("LOGFILE"), ascii ("a.log.gz"), [31, 139, 3]⟩] := by decide

/-! ### The forward pass of `extractAllMultipartFileParts` on built bodies -/

theorem segsFlat_append (B : List Nat) (x y : List SrcPart) :
    segsFlat B (x ++ y) = segsFlat B x ++ segsFlat B y := by
  induction x with
  | nil => simp [segsFlat_nil]
  | cons p x ih => rw [List.cons_append, segsFlat_cons, segsFlat_cons, ih, List.append_assoc]

theorem segsFlat_last_crlf (B : List Nat) :
    ∀ pre : List SrcPart, pre ≠ [] →
      ∃ Z : List Nat, segsFlat B pre = Z ++ [13, 10] ∧
        Z.length + 2 = (segsFlat B pre).length := by
  intro pre
  induction pre with
  | nil => intro h; exact absurd rfl h
  | cons p pre ih =>
    intro _
    rcases pre with _ | ⟨p2, pre2⟩
    · refine ⟨[45, 45] ++ B ++ [13, 10] ++ hdrOf p ++ [13, 10, 13, 10] ++ p.content, ?_, ?_⟩
      · rw [segsFlat_cons, segsFlat_nil, List.append_nil]
        simp [partSeg, List.append_assoc]
      · rw [segsFlat_cons, segsFlat_nil, List.append_nil, partSeg_length]
        simp only [List.length_append]
        simp
        omega
    · obtain ⟨Z, hz, hl⟩ := ih (by simp)
      refine ⟨partSeg B p ++ Z, ?_, ?_⟩
      · rw [segsFlat_cons, hz, List.append_assoc]
      · rw [segsFlat_cons]
        simp only [List.length_append] at hl ⊢
        omega

/-- The body bytes just before a segment boundary (when there is a
previous segment) are the trailing CRLF of that segment. -/
theorem body_before_boundary (B : List Nat) {ps pre rest : List SrcPart}
    (hps : ps = pre ++ rest) (hne : pre ≠ []) :
    (buildBody B ps)[(segsFlat B pre).length - 2]? = some 13 ∧
    (buildBody B ps)[(segsFlat B pre).length - 1]? = some 10 := by
  obtain ⟨Z, hz, hl⟩ := segsFlat_last_crlf B pre hne
  have hb : buildBody B ps = Z ++ ([13, 10] ++ buildBody B rest) := by
    rw [hps, buildBody_append, hz, List.append_assoc]
  constructor
  · have hg := getElem?_append_mid Z ([13, 10] ++ buildBody B rest) 0
    rw [Nat.add_zero] at hg
    rw [hb, show (segsFlat B pre).length - 2 = Z.length from by omega, hg]
    simp
  · have hg := getElem?_append_mid Z ([13, 10] ++ buildBody B rest) 1
    rw [hb, show (segsFlat B pre).length - 1 = Z.length + 1 from by omega, hg]
    simp

/-- The delimiter search from at most two bytes before a segment start
finds that segment start. -/
theorem delim_next (B : List Nat) {ps pre rest : List SrcPart} (hps : ps = pre ++ rest)
    (hB : cleanBoundary B) (c : Nat) (hc1 : (segsFlat B pre).length - 2 ≤ c)
    (hc2 : c ≤ (segsFlat B pre).length)
    (hocc : occursAt (buildBody B ps) (dashDelim B) (segsFlat B pre).length) :
    indexOfSubarray (buildBody B ps) (dashDelim B) c = some (segsFlat B pre).length := by
  rw [indexOfSubarray_eq_some]
  refine ⟨by omega, hocc, ?_⟩
  intro j hj1 hj2 ho
  have hne : pre ≠ [] := by
    intro h
    rw [h, segsFlat_nil] at hj2
    simp at hj2
  obtain ⟨h13, h10⟩ := body_before_boundary B hps hne
  have hd0 := occursAt_getElem ho j (Nat.le_refl _) (by rw [dashDelim_length]; omega)
  have he0 : j - j = 0 := by omega
  rw [he0, dashDelim_at0] at hd0
  by_cases hj : j = (segsFlat B pre).length - 2
  · rw [hj, h13] at hd0
    exact absurd hd0 (by decide)
  · have hj' : j = (segsFlat B pre).length - 1 := by omega
    rw [hj', h10] at hd0
    exact absurd hd0 (by decide)

theorem buildBody_term (B : List Nat) (pre : List SrcPart) :
    buildBody B pre = segsFlat B pre ++ dashDelim B ++ [45, 45] := by
  induction pre with
  | nil => simp [buildBody_nil, segsFlat_nil, dashDelim, List.append_assoc]
  | cons p ps ih =>
    rw [buildBody_cons, segsFlat_cons, ih]
    simp [List.append_assoc]

theorem allAux_at_end (body boundary : List Nat) :
    ∀ fuel, extractAllAux body boundary body.length fuel = [] := by
  intro fuel
  cases fuel with
  | zero => rfl
  | succ m =>
    have hnone : indexOfSubarray body (dashDelim boundary) body.length = none := by
      unfold indexOfSubarray
      rw [if_neg]
      rw [dashDelim_length]
      omega
    simp only [extractAllAux, hnone]

/-! ### One-step unfoldings of the `extractAllMultipartFileParts` loop -/

theorem allAux_noDelim (body boundary : List Nat) (s fuel : Nat)
    (h1 : indexOfSubarray body (dashDelim boundary) s = none) :
    extractAllAux body boundary s (fuel + 1) = [] := by
  simp only [extractAllAux, h1]

theorem allAux_closing (body boundary : List Nat) (s fuel partStart : Nat)
    (h1 : indexOfSubarray body (dashDelim boundary) s = some partStart)
    (h2 : (body.getD (partStart + (dashDelim boundary).length) 0 == 45 &&
           body.getD (partStart + (dashDelim boundary).length + 1) 0 == 45) = true) :
    extractAllAux body boundary s (fuel + 1) = [] := by
  simp only [extractAllAux, h1, h2, if_true]

theorem allAux_noHem (body boundary : List Nat) (s fuel partStart : Nat)
    (h1 : indexOfSubarray body (dashDelim boundary) s = some partStart)
    (h2 : (body.getD (partStart + (dashDelim boundary).length) 0 == 45 &&
           body.getD (partStart + (dashDelim boundary).length + 1) 0 == 45) = false)
    (h3 : indexOfSubarray body headerEndMarker
      (skipCRLF body (partStart + (dashDelim boundary).length)) = none) :
    extractAllAux body boundary s (fuel + 1) = [] := by
  simp only [extractAllAux, h1, h2, h3, Bool.false_eq_true, if_false]

theorem allAux_step (body boundary : List Nat) (s fuel partStart headersEnd contentEnd : Nat)
    (h1 : indexOfSubarray body (dashDelim boundary) s = some partStart)
    (h2 : (body.getD (partStart + (dashDelim boundary).length) 0 == 45 &&
           body.getD (partStart + (dashDelim boundary).length + 1) 0 == 45) = false)
    (h3 : indexOfSubarray body headerEndMarker
      (skipCRLF body (partStart + (dashDelim boundary).length)) = some headersEnd)
    (h4 : (indexOfSubarray body (crlfDelim boundary)
      (headersEnd + headerEndMarker.length)).getD body.length = contentEnd) :
    extractAllAux body boundary s (fuel + 1) =
      (let hs2 := skipCRLF body (partStart + (dashDelim boundary).length)
       let headersText := (body.drop hs2).take (headersEnd - hs2)
       let fieldName := (regexFirstMatch headersText nameKey).getD []
       let filename :=
         match regexFirstMatch headersText filenameKey with
         | some v => basename v
         | none => []
       let fileBytes := (body.drop (headersEnd + headerEndMarker.length)).take
         (contentEnd - (headersEnd + headerEndMarker.length))
       let rest := extractAllAux body boundary contentEnd fuel
       if filename.isEmpty then rest else ⟨fieldName, filename, fileBytes⟩ :: rest) := by
  simp only [extractAllAux, h1, h2, h3, h4, Bool.false_eq_true, if_false]

/-- The file-bearing parts of a list, in declaration order. -/
def allPartsOf (ps : List SrcPart) : List NamedPart :=
  ps.filterMap fun p =>
    match p.filename with
    | some f => some ⟨p.name, f, p.content⟩
    | none => none

theorem allAux_build (B : List Nat) {ps : List SrcPart} (hs : safeBuild B ps) :
    ∀ (rest pre : List SrcPart) (c fuel : Nat), ps = pre ++ rest →
      (segsFlat B pre).length - 2 ≤ c → c ≤ (segsFlat B pre).length →
      rest.length + 1 ≤ fuel →
      extractAllAux (buildBody B ps) B c fuel = allPartsOf rest := by
  intro rest
  induction rest with
  | nil =>
    intro pre c fuel hps hc1 hc2 hfuel
    rcases fuel with _ | m
    · omega
    have hterm : buildBody B ps = segsFlat B pre ++ dashDelim B ++ [45, 45] := by
      rw [hps, List.append_nil, buildBody_term]
    have hocc : occursAt (buildBody B ps) (dashDelim B) (segsFlat B pre).length := by
      rw [hterm]
      exact occursAt_append_mid _ _ _
    have h1 := delim_next B hps hs.1 c hc1 hc2 hocc
    have hb45a : (buildBody B ps).getD
        ((segsFlat B pre).length + (dashDelim B).length) 0 = 45 := by
      apply getD_of_getElem?
      rw [hterm]
      have hg := getElem?_append_mid (segsFlat B pre ++ dashDelim B) [45, 45] 0
      rw [List.length_append, Nat.add_zero] at hg
      rw [hg]
      rfl
    have hb45b : (buildBody B ps).getD
        ((segsFlat B pre).length + (dashDelim B).length + 1) 0 = 45 := by
      apply getD_of_getElem?
      rw [hterm]
      have hg := getElem?_append_mid (segsFlat B pre ++ dashDelim B) [45, 45] 1
      rw [List.length_append] at hg
      rw [hg]
      rfl
    rw [allAux_closing (buildBody B ps) B c m _ h1 (by rw [hb45a, hb45b]; rfl)]
    rfl
  | cons p rest2 ih =>
    intro pre c fuel hps hc1 hc2 hfuel
    rcases fuel with _ | m
    · simp at hfuel
    have hocc : occursAt (buildBody B ps) (dashDelim B) (segsFlat B pre).length := by
      rw [buildBody_delim B hps]
      exact occursAt_append_mid _ _ _
    have h1 := delim_next B hps hs.1 c hc1 hc2 hocc
    have hb13 : (buildBody B ps).getD
        ((segsFlat B pre).length + (dashDelim B).length) 0 = 13 := by
      apply getD_of_getElem?
      rw [dashDelim_length]
      have he : (segsFlat B pre).length + (B.length + 2) =
          (segsFlat B pre).length + B.length + 2 + 0 := by omega
      rw [he]
      simpa using body_at_delimCRLF B hps 0
    have hcond : ((buildBody B ps).getD
          ((segsFlat B pre).length + (dashDelim B).length) 0 == 45 &&
        (buildBody B ps).getD
          ((segsFlat B pre).length + (dashDelim B).length + 1) 0 == 45) = false := by
      rw [hb13]
      rfl
    have hsk := skip_step B hps
    have h3 : indexOfSubarray (buildBody B ps) headerEndMarker
        (skipCRLF (buildBody B ps) ((segsFlat B pre).length + (dashDelim B).length)) =
        some ((segsFlat B pre).length + B.length + 4 + (hdrOf p).length) := by
      rw [hsk]
      exact hem_first B hs hps
    have harr : (segsFlat B pre).length + B.length + 4 + (hdrOf p).length +
        headerEndMarker.length =
        (segsFlat B pre).length + B.length + 8 + (hdrOf p).length := by
      rw [hemLen4]
      omega
    have h4 : (indexOfSubarray (buildBody B ps) (crlfDelim B)
        ((segsFlat B pre).length + B.length + 4 + (hdrOf p).length +
          headerEndMarker.length)).getD (buildBody B ps).length =
        (segsFlat B pre).length + B.length + 8 + (hdrOf p).length + p.content.length := by
      rw [harr, crlf_first B hs hps]
      rfl
    rw [allAux_step (buildBody B ps) B c m _ _ _ h1 hcond h3 h4]
    simp only [hsk]
    have hsub2 : (segsFlat B pre).length + B.length + 4 + (hdrOf p).length -
        ((segsFlat B pre).length + B.length + 4) = (hdrOf p).length := by
      omega
    simp only [hsub2, headersText_eq B hps]
    have hsafep : safePart B p := hs.2.2.1 p (by rw [hps]; simp)
    simp only [name_capture hsafep.1 hsafep.2.1 hsafep.2.2.2.2]
    simp only [harr]
    have hsub : (segsFlat B pre).length + B.length + 8 + (hdrOf p).length +
        p.content.length -
        ((segsFlat B pre).length + B.length + 8 + (hdrOf p).length) = p.content.length := by
      omega
    simp only [hsub, content_slice B hps]
    have hLnext : (segsFlat B (pre ++ [p])).length =
        (segsFlat B pre).length + B.length + 10 + (hdrOf p).length + p.content.length := by
      rw [segsFlat_append]
      simp only [List.length_append, segsFlat_cons, segsFlat_nil, List.append_nil,
        partSeg_length]
      omega
    have hfuel2 : rest2.length + 1 ≤ m := by
      simp only [List.length_cons] at hfuel
      omega
    have hrec := ih (pre ++ [p])
      ((segsFlat B pre).length + B.length + 8 + (hdrOf p).length + p.content.length) m
      (by rw [hps]; simp) (by omega) (by omega) hfuel2
    simp only [hrec]
    rcases hpf : p.filename with _ | f
    · simp only [fname_none hsafep.1 hpf]
      simp [allPartsOf, List.filterMap_cons, hpf]
    · have hfok2 : cleanToken f ∧ f ≠ [] ∧ 47 ∉ f := by
        have hok := hsafep.2.2.2.2
        rw [hpf] at hok
        exact hok
      simp only [fname_capture hsafep.1 hpf hsafep.2.2.2.2]
      simp [allPartsOf, List.filterMap_cons, hpf, basename_noslash hfok2.2.2, hfok2.2.1]

theorem allParts_length_le (B : List Nat) (ps : List SrcPart) :
    ps.length ≤ (buildBody B ps).length := by
  induction ps with
  | nil => simp
  | cons p t ih =>
    rw [buildBody_cons, List.length_append, List.length_cons, partSeg_length]
    omega

/-- On a safely built body, the all-parts pass returns exactly the
file-bearing parts, in declaration order. -/
theorem allParts_build (B : List Nat) {ps : List SrcPart} (hs : safeBuild B ps) :
    extractAllMultipartFileParts (buildBody B ps) B = allPartsOf ps := by
  unfold extractAllMultipartFileParts
  have hlen := allParts_length_le B ps
  exact allAux_build B hs ps [] 0 _ rfl (by simp [segsFlat_nil]) (by simp [segsFlat_nil])
    (by omega)

theorem skip_ge (u8 : List Nat) (i : Nat) : i ≤ skipCRLF u8 i := by
  unfold skipCRLF
  split <;> omega

theorem allAux_big (body boundary : List Nat) {s : Nat} (hbig : body.length + 1 ≤ s) :
    ∀ fuel, extractAllAux body boundary s fuel = [] := by
  intro fuel
  cases fuel with
  | zero => rfl
  | succ m =>
    apply allAux_noDelim
    rw [indexOfSubarray_eq_none]
    intro j hj ho
    have hb := ho.1
    rw [dashDelim_length] at hb
    omega

/-- The loop cursor strictly increases: whatever the step's outcome, the
next cursor value exceeds the current one and stays within the buffer. -/
theorem allAux_cursor (body boundary : List Nat) {s partStart headersEnd : Nat}
    (hd : indexOfSubarray body (dashDelim boundary) s = some partStart)
    (hh : indexOfSubarray body headerEndMarker
      (skipCRLF body (partStart + (dashDelim boundary).length)) = some headersEnd) :
    s < (indexOfSubarray body (crlfDelim boundary)
        (headersEnd + headerEndMarker.length)).getD body.length ∧
      (indexOfSubarray body (crlfDelim boundary)
        (headersEnd + headerEndMarker.length)).getD body.length ≤ body.length := by
  obtain ⟨hd1, hd2, -⟩ := indexOfSubarray_eq_some.1 hd
  have hd3 := hd2.1
  obtain ⟨hh1, hh2, -⟩ := indexOfSubarray_eq_some.1 hh
  have hh3 := hh2.1
  have hsk := skip_ge body (partStart + (dashDelim boundary).length)
  have hdl := dashDelim_length boundary
  have hml : headerEndMarker.length = 4 := rfl
  rcases hcf : indexOfSubarray body (crlfDelim boundary)
      (headersEnd + headerEndMarker.length) with _ | v
  · simp only [Option.getD_none]
    omega
  · obtain ⟨hv1, hv2, -⟩ := indexOfSubarray_eq_some.1 hcf
    have hv3 := hv2.1
    simp only [Option.getD_some]
    omega

/-- The loop's result does not depend on the iteration budget, once the
budget covers the remaining buffer: the cursor strictly increases, so
`body.length + 1` iterations always suffice. -/
theorem allAux_fuel (body boundary : List Nat) :
    ∀ f1 f2 s, body.length + 1 - s ≤ f1 → body.length + 1 - s ≤ f2 →
      extractAllAux body boundary s f1 = extractAllAux body boundary s f2 := by
  intro f1
  induction f1 with
  | zero =>
    intro f2 s h1 h2
    rw [allAux_big body boundary (by omega), allAux_big body boundary (by omega)]
  | succ m ih =>
    intro f2 s h1 h2
    rcases f2 with _ | m2
    · rw [allAux_big body boundary (by omega), allAux_big body boundary (by omega)]
    rcases hd : indexOfSubarray body (dashDelim boundary) s with _ | partStart
    · rw [allAux_noDelim _ _ _ _ hd, allAux_noDelim _ _ _ _ hd]
    rcases hcl : (body.getD (partStart + (dashDelim boundary).length) 0 == 45 &&
        body.getD (partStart + (dashDelim boundary).length + 1) 0 == 45) with _ | _
    · rcases hh : indexOfSubarray body headerEndMarker
          (skipCRLF body (partStart + (dashDelim boundary).length)) with _ | headersEnd
      · rw [allAux_noHem _ _ _ _ _ hd hcl hh, allAux_noHem _ _ _ _ _ hd hcl hh]
      · have hce : (indexOfSubarray body (crlfDelim boundary)
            (headersEnd + headerEndMarker.length)).getD body.length =
            (indexOfSubarray body (crlfDelim boundary)
              (headersEnd + headerEndMarker.length)).getD body.length := rfl
        rw [allAux_step _ _ _ m _ _ _ hd hcl hh hce,
          allAux_step _ _ _ m2 _ _ _ hd hcl hh hce]
        obtain ⟨hlt, hle⟩ := allAux_cursor body boundary hd hh
        have hrec := ih m2 ((indexOfSubarray body (crlfDelim boundary)
          (headersEnd + headerEndMarker.length)).getD body.length) (by omega) (by omega)
        simp only [hrec]
    · rw [allAux_closing _ _ _ _ _ hd hcl, allAux_closing _ _ _ _ _ hd hcl]

/-! ### Basename reduction and all-parts filename facts -/

theorem getLastD_cons_ne {l : List (List Nat)} (h : l ≠ []) (a b : List Nat) :
    (l.getLastD a) = l.getLastD b := by
  cases l with
  | nil => exact absurd rfl h
  | cons x t => rw [List.getLastD_cons, List.getLastD_cons]

theorem getLastD_modifyHead {l : List (List Nat)} (h : 2 ≤ l.length)
    (f : List Nat → List Nat) (d : List Nat) :
    (l.modifyHead f).getLastD d = l.getLastD d := by
  rcases l with _ | ⟨a, _ | ⟨b, t⟩⟩
  · simp at h
  · simp at h
  · rw [List.modifyHead_cons, List.getLastD_cons d (f a), List.getLastD_cons d a]
    exact getLastD_cons_ne (by simp) (f a) a

theorem splitOn_slash : ∀ (v w : List Nat),
    2 ≤ (List.splitOnP (fun b => b == 47) (v ++ 47 :: w)).length ∧
    (List.splitOnP (fun b => b == 47) (v ++ 47 :: w)).getLastD [] =
      (List.splitOnP (fun b => b == 47) w).getLastD [] := by
  intro v
  induction v with
  | nil =>
    intro w
    rw [List.nil_append, List.splitOnP_cons, if_pos (by simp)]
    have hne := List.splitOnP_ne_nil (fun b => b == 47) w
    constructor
    · have := List.length_pos_of_ne_nil hne
      simp only [List.length_cons]
      omega
    · rw [List.getLastD_cons]
  | cons a v ih =>
    intro w
    rw [List.cons_append, List.splitOnP_cons]
    by_cases hp : a = 47
    · rw [if_pos (by simp [hp])]
      obtain ⟨hl, he⟩ := ih w
      constructor
      · simp only [List.length_cons]
        omega
      · rw [List.getLastD_cons]
        refine Eq.trans (getLastD_cons_ne ?_ [] []) he
        exact List.splitOnP_ne_nil _ _
    · rw [if_neg (by simp [hp])]
      obtain ⟨hl, he⟩ := ih w
      constructor
      · rw [List.length_modifyHead]
        exact hl
      · rw [getLastD_modifyHead hl]
        exact he

/-- Basename reduction: a `/` strips everything before it. -/
theorem basename_slash (v w : List Nat) : basename (v ++ 47 :: w) = basename w :=
  (splitOn_slash v w).2

/-- Every part emitted by the all-parts loop carries a non-empty filename. -/
theorem allAux_filename_ne (body boundary : List Nat) :
    ∀ fuel s p, p ∈ extractAllAux body boundary s fuel → p.filename ≠ [] := by
  intro fuel
  induction fuel with
  | zero =>
    intro s p hp
    simp [extractAllAux] at hp
  | succ m ih =>
    intro s p hp
    rcases hd : indexOfSubarray body (dashDelim boundary) s with _ | partStart
    · rw [allAux_noDelim _ _ _ _ hd] at hp
      simp at hp
    rcases hcl : (body.getD (partStart + (dashDelim boundary).length) 0 == 45 &&
        body.getD (partStart + (dashDelim boundary).length + 1) 0 == 45) with _ | _
    · rcases hh : indexOfSubarray body headerEndMarker
          (skipCRLF body (partStart + (dashDelim boundary).length)) with _ | headersEnd
      · rw [allAux_noHem _ _ _ _ _ hd hcl hh] at hp
        simp at hp
      · rw [allAux_step _ _ _ m _ _ _ hd hcl hh rfl] at hp
        simp only [] at hp
        split at hp
        · exact ih _ p hp
        · rcases List.mem_cons.1 hp with he | hm
          · subst he
            rename_i hemp
            simp only [List.isEmpty_iff] at hemp
            exact hemp
          · exact ih _ p hm
    · rw [allAux_closing _ _ _ _ _ hd hcl] at hp
      simp at hp

/-! ### Concrete instance data for the claims -/

/-- File content that contains the literal bytes `name="SERIALNUMBER"`. -/
def cexLogContent : List Nat := nameNeedle (ascii ("SERIALNUMBER"))

/-- Two parts with pairwise-distinct names whose first part's content embeds
the text needle of the second — a legal input to the spec's builder. -/
def cexParts : List SrcPart :=
  [⟨ascii ("LOGFILE"), some (ascii ("a.log.gz")), cexLogContent⟩, demoSN]

def cexBody : List Nat := buildBody demoB cexParts

/-- A header line spelling the name attribute in upper case. -/
def c9hdr : List Nat :=
  ascii ("Content-Disposition: form-data; NAME=") ++ [34] ++ ascii ("SERIALNUMBER") ++ [34]
    ++ ascii ("; filename=") ++ [34] ++ ascii ("s.bin") ++ [34]

/-- A well-delimited single-part body whose header uses `NAME="..."`. -/
def c9Body : List Nat :=
  [45, 45] ++ demoB ++ [13, 10] ++ c9hdr ++ [13, 10, 13, 10] ++ ascii ("hello")
    ++ [13, 10, 45, 45] ++ demoB ++ [45, 45]

/-- A built body whose only part is named `OTHER` with filename `LOGFILE`. -/
def c10Body : List Nat :=
  buildBody demoB [⟨ascii ("OTHER"), some (ascii ("LOGFILE")), ascii ("xyz")⟩]

/-- A built body whose only part carries a `/`-separated filename path. -/
def c7Body : List Nat :=
  buildBody demoB [⟨ascii ("DATA"), some (ascii ("a/b/c.txt")), ascii ("dat")⟩]

/-- A truncated body: one part with headers and content but no closing
`\r\n--<boundary>` anywhere after the content start. -/
def truncBody : List Nat :=
  [45, 45] ++ demoB ++ [13, 10] ++ hdrOf ⟨ascii ("F"), some (ascii ("t.bin")), []⟩
    ++ [13, 10, 13, 10] ++ ascii ("tail-data")

/-! ### The claims -/

/-- C1: Round-trip, amended — the claim fails for fully arbitrary byte
content (see the counterexample below), and holds once the build is safe:
pairwise-distinct clean non-empty field names, content free of the two
scanner patterns `name="` and `\r\n--<boundary>`, filenames clean,
non-empty, slash-free and distinct from every field name. Then extracting
any part's field name from the built body recovers its trimmed content
(text view) and its exact `{filename, bytes}` (file view). -/
theorem C1_round_trip {B : List Nat} {ps pre post : List SrcPart} {q : SrcPart}
    (hs : safeBuild B ps) (hps : ps = pre ++ q :: post) :
    extractMultipartTextField (buildBody B ps) B q.name = trimBytes q.content ∧
    ∀ f, q.filename = some f →
      extractMultipartFilePart (buildBody B ps) B q.name = some ⟨f, q.content⟩ :=
  ⟨textField_on_build hs hps, fun _ hf => filePart_on_build hs hps hf⟩

/-- Witness for C1 at the concrete demonstration build: the text field
`SERIALNUMBER` and the file part `LOGFILE` both round-trip. -/
theorem C1_round_trip_witness :
    extractMultipartTextField demoBody demoB (ascii ("SERIALNUMBER")) =
      trimBytes (ascii ("12345")) ∧
    extractMultipartFilePart demoBody demoB (ascii ("LOGFILE")) =
      some ⟨ascii ("a.log.gz"), [31, 139, 3]⟩ :=
  ⟨(C1_round_trip (by decide) (show demoParts = [demoLog] ++ demoSN :: [] from rfl)).1,
   (C1_round_trip (by decide) (show demoParts = [] ++ demoLog :: [demoSN] from rfl)).2
     (ascii ("a.log.gz")) rfl⟩

/-- C1 counterexample: two parts with pairwise-distinct field names where
the first part's content contains the literal bytes `name="SERIALNUMBER"`;
extracting the `SERIALNUMBER` field from the built body returns those
content bytes, not the part's trimmed content `12345`, refuting the
round-trip for arbitrary byte content. -/
theorem C1_cex :
    (cexParts.map SrcPart.name).Nodup ∧
    extractMultipartTextField cexBody demoB (ascii ("SERIALNUMBER")) ≠
      trimBytes (ascii ("12345")) := by decide

/-- C2: `extractMultipartTextField` is total with an empty-string fallback:
when all four location steps succeed it returns the trimmed content span,
and when any step fails to find its target it returns the empty byte
string; the two closing conjuncts instantiate the success path on the
demonstration body and a failing lookup on the empty body. -/
theorem C2_text_field_steps :
    (∀ body boundary fieldName : List Nat, ∀ namePos partStart headersEnd contentEnd : Nat,
      indexOfSubarray body (nameNeedle fieldName) 0 = some namePos →
      lastIndexOfSubarray body (dashDelim boundary) namePos = some partStart →
      indexOfSubarray body headerEndMarker
        (skipCRLF body (partStart + (dashDelim boundary).length)) = some headersEnd →
      indexOfSubarray body (crlfDelim boundary) (headersEnd + headerEndMarker.length)
        = some contentEnd →
      extractMultipartTextField body boundary fieldName =
        trimBytes ((body.drop (headersEnd + headerEndMarker.length)).take
          (contentEnd - (headersEnd + headerEndMarker.length)))) ∧
    (∀ body boundary fieldName : List Nat,
      indexOfSubarray body (nameNeedle fieldName) 0 = none →
      extractMultipartTextField body boundary fieldName = []) ∧
    (∀ body boundary fieldName : List Nat, ∀ namePos : Nat,
      indexOfSubarray body (nameNeedle fieldName) 0 = some namePos →
      lastIndexOfSubarray body (dashDelim boundary) namePos = none →
      extractMultipartTextField body boundary fieldName = []) ∧
    (∀ body boundary fieldName : List Nat, ∀ namePos partStart : Nat,
      indexOfSubarray body (nameNeedle fieldName) 0 = some namePos →
      lastIndexOfSubarray body (dashDelim boundary) namePos = some partStart →
      indexOfSubarray body headerEndMarker
        (skipCRLF body (partStart + (dashDelim boundary).length)) = none →
      extractMultipartTextField body boundary fieldName = []) ∧
    (∀ body boundary fieldName : List Nat, ∀ namePos partStart headersEnd : Nat,
      indexOfSubarray body (nameNeedle fieldName) 0 = some namePos →
      lastIndexOfSubarray body (dashDelim boundary) namePos = some partStart →
      indexOfSubarray body headerEndMarker
        (skipCRLF body (partStart + (dashDelim boundary).length)) = some headersEnd →
      indexOfSubarray body (crlfDelim boundary) (headersEnd + headerEndMarker.length)
        = none →
      extractMultipartTextField body boundary fieldName = []) ∧
    extractMultipartTextField demoBody demoB (ascii ("SERIALNUMBER")) = ascii ("12345") ∧
    extractMultipartTextField [] demoB (ascii ("X")) = [] :=
  ⟨textField_succ, textField_fail1, textField_fail2, textField_fail3, textField_fail4,
   by decide, by decide⟩

/-- C3: Truncation asymmetry — when the name occurrence, enclosing
delimiter and header terminator are all found but no `\r\n--<boundary>`
occurs after the content start, `extractMultipartFilePart` returns `none`,
while the all-parts loop takes the remaining bytes up to the end of the
buffer as the final part's content (emitting the part exactly when it
carries a filename, and stopping afterwards); the two closing conjuncts
instantiate both behaviors on a concrete truncated body. -/
theorem C3_truncation_asymmetry :
    (∀ body boundary fieldName : List Nat, ∀ namePos partStart headersEnd : Nat,
      indexOfSubarray body (nameNeedle fieldName) 0 = some namePos →
      lastIndexOfSubarray body (dashDelim boundary) namePos = some partStart →
      indexOfSubarray body headerEndMarker
        (skipCRLF body (partStart + (dashDelim boundary).length)) = some headersEnd →
      indexOfSubarray body (crlfDelim boundary) (headersEnd + headerEndMarker.length)
        = none →
      extractMultipartFilePart body boundary fieldName = none) ∧
    (∀ body boundary : List Nat, ∀ s fuel partStart headersEnd : Nat,
      indexOfSubarray body (dashDelim boundary) s = some partStart →
      (body.getD (partStart + (dashDelim boundary).length) 0 == 45 &&
        body.getD (partStart + (dashDelim boundary).length + 1) 0 == 45) = false →
      indexOfSubarray body headerEndMarker
        (skipCRLF body (partStart + (dashDelim boundary).length)) = some headersEnd →
      indexOfSubarray body (crlfDelim boundary) (headersEnd + headerEndMarker.length)
        = none →
      extractAllAux body boundary s (fuel + 1) =
        (let hs2 := skipCRLF body (partStart + (dashDelim boundary).length)
         let headersText := (body.drop hs2).take (headersEnd - hs2)
         let filename :=
           match regexFirstMatch headersText filenameKey with
           | some v => basename v
           | none => []
         if filename.isEmpty then []
         else [⟨(regexFirstMatch headersText nameKey).getD [], filename,
               body.drop (headersEnd + headerEndMarker.length)⟩])) ∧
    extractMultipartFilePart truncBody demoB (ascii ("F")) = none ∧
    extractAllMultipartFileParts truncBody demoB =
      [⟨ascii ("F"), ascii ("t.bin"), ascii ("tail-data")⟩] := by
  refine ⟨filePart_fail4, ?_, by decide, by decide⟩
  intro body boundary s fuel partStart headersEnd hd hcl hh hce
  rw [allAux_step body boundary s fuel partStart headersEnd body.length hd hcl hh
    (by rw [hce]; rfl)]
  have htake : (body.drop (headersEnd + headerEndMarker.length)).take
      (body.length - (headersEnd + headerEndMarker.length)) =
      body.drop (headersEnd + headerEndMarker.length) := by
    rw [← List.length_drop, List.take_length]
  simp only [allAux_at_end, htake]

/-- C4: every element returned by `extractAllMultipartFileParts` carries a
non-empty filename; on a safely built body the result is exactly the
file-bearing parts in declaration order; and a part without a filename
attribute is excluded from the result while its trimmed content remains
reachable through `extractMultipartTextField` under its field name. -/
theorem C4_all_parts_shape :
    (∀ body boundary : List Nat, ∀ p ∈ extractAllMultipartFileParts body boundary,
      p.filename ≠ []) ∧
    (∀ B : List Nat, ∀ ps : List SrcPart, safeBuild B ps →
      extractAllMultipartFileParts (buildBody B ps) B = allPartsOf ps) ∧
    (∀ B : List Nat, ∀ ps pre post : List SrcPart, ∀ q : SrcPart,
      safeBuild B ps → ps = pre ++ q :: post → q.filename = none →
      (∀ r ∈ extractAllMultipartFileParts (buildBody B ps) B, r.fieldName ≠ q.name) ∧
      extractMultipartTextField (buildBody B ps) B q.name = trimBytes q.content) := by
  refine ⟨fun body boundary p hp => allAux_filename_ne body boundary _ _ p hp,
    fun B ps hs => allParts_build B hs, ?_⟩
  intro B ps pre post q hs hps hq
  refine ⟨?_, textField_on_build hs hps⟩
  intro r hr hname
  rw [allParts_build B hs] at hr
  obtain ⟨p, hpmem, hpf⟩ := List.mem_filterMap.1 hr
  rcases hfn : p.filename with _ | f
  · rw [hfn] at hpf
    exact Option.noConfusion hpf
  · rw [hfn] at hpf
    have hrf : r.fieldName = p.name := by
      rw [← Option.some_inj.1 hpf]
    have hqmem : q ∈ ps := by
      rw [hps]
      simp
    have hpq : p = q :=
      List.inj_on_of_nodup_map hs.2.1 hpmem hqmem (by rw [← hrf, hname])
    rw [hpq, hq] at hfn
    exact Option.noConfusion hfn

/-- C5: content false positive — in `cexBody` the first occurrence of
`name="SERIALNUMBER"` (position 78) lies inside the first part's binary
content, before the genuine header occurrence (position 138), and the
field extractor returns those content bytes instead of the real value
`12345`. -/
theorem C5_content_false_positive :
    indexOfSubarray cexBody (nameNeedle (ascii ("SERIALNUMBER"))) 0 = some 78 ∧
    occursAt cexBody (nameNeedle (ascii ("SERIALNUMBER"))) 138 ∧
    extractMultipartTextField cexBody demoB (ascii ("SERIALNUMBER")) = cexLogContent ∧
    cexLogContent ≠ ascii ("12345") := by decide

/-- C6: scanner correctness — `indexOfSubarray` returns exactly the first
occurrence of the needle at or after `fromIndex` and `lastIndexOfSubarray`
exactly the last occurrence at or before `beforeIndex`; both are total
functions whose no-match outcome is the explicit absent value (`none`,
the JS `-1`), never an error. -/
theorem C6_scanner_correct :
    (∀ h n : List Nat, ∀ f r : Nat,
      indexOfSubarray h n f = some r ↔
        f ≤ r ∧ occursAt h n r ∧ ∀ j, f ≤ j → j < r → ¬ occursAt h n j) ∧
    (∀ h n : List Nat, ∀ f : Nat,
      indexOfSubarray h n f = none ↔ ∀ j, f ≤ j → ¬ occursAt h n j) ∧
    (∀ h n : List Nat, ∀ b r : Nat,
      lastIndexOfSubarray h n b = some r ↔
        r ≤ b ∧ occursAt h n r ∧ ∀ j, r < j → j ≤ b → ¬ occursAt h n j) ∧
    (∀ h n : List Nat, ∀ b : Nat,
      lastIndexOfSubarray h n b = none ↔ ∀ j, j ≤ b → ¬ occursAt h n j) :=
  ⟨fun _ _ _ _ => indexOfSubarray_eq_some, fun _ _ _ => indexOfSubarray_eq_none,
   fun _ _ _ _ => lastIndexOfSubarray_eq_some, fun _ _ _ => lastIndexOfSubarray_eq_none⟩

/-- C7: basename reduction — wherever a `filename="..."` attribute value is
parsed, a `/` discards everything before it and a slash-free value is kept
whole, so `a/b/c.txt` yields `c.txt`; the closing conjuncts instantiate
this inside both `extractMultipartFilePart` and
`extractAllMultipartFileParts`. -/
theorem C7_basename_reduction :
    (∀ v w : List Nat, basename (v ++ 47 :: w) = basename w) ∧
    (∀ v : List Nat, 47 ∉ v → basename v = v) ∧
    basename (ascii ("a/b/c.txt")) = ascii ("c.txt") ∧
    extractMultipartFilePart c7Body demoB (ascii ("DATA")) =
      some ⟨ascii ("c.txt"), ascii ("dat")⟩ ∧
    extractAllMultipartFileParts c7Body demoB =
      [⟨ascii ("DATA"), ascii ("c.txt"), ascii ("dat")⟩] :=
  ⟨basename_slash, fun _ h => basename_noslash h, by decide, by decide, by decide⟩

/-- C8: termination of the all-parts pass — the loop's result is
independent of the iteration budget once it covers the buffer (so
`body.length + 1` iterations compute `extractAllMultipartFileParts`,
because the cursor strictly increases and stays within the buffer on every
emitting step), and the loop stops exactly when the two bytes after a
located delimiter are the closing `--`, or when no further delimiter or no
header terminator is found. -/
theorem C8_all_parts_terminating :
    (∀ body boundary : List Nat, ∀ fuel : Nat, body.length + 1 ≤ fuel →
      extractAllAux body boundary 0 fuel = extractAllMultipartFileParts body boundary) ∧
    (∀ body boundary : List Nat, ∀ s partStart headersEnd : Nat,
      indexOfSubarray body (dashDelim boundary) s = some partStart →
      indexOfSubarray body headerEndMarker
        (skipCRLF body (partStart + (dashDelim boundary).length)) = some headersEnd →
      s < (indexOfSubarray body (crlfDelim boundary)
          (headersEnd + headerEndMarker.length)).getD body.length ∧
        (indexOfSubarray body (crlfDelim boundary)
          (headersEnd + headerEndMarker.length)).getD body.length ≤ body.length) ∧
    (∀ body boundary : List Nat, ∀ s fuel : Nat,
      indexOfSubarray body (dashDelim boundary) s = none →
      extractAllAux body boundary s (fuel + 1) = []) ∧
    (∀ body boundary : List Nat, ∀ s fuel partStart : Nat,
      indexOfSubarray body (dashDelim boundary) s = some partStart →
      (body.getD (partStart + (dashDelim boundary).length) 0 == 45 &&
        body.getD (partStart + (dashDelim boundary).length + 1) 0 == 45) = true →
      extractAllAux body boundary s (fuel + 1) = []) ∧
    (∀ body boundary : List Nat, ∀ s fuel partStart : Nat,
      indexOfSubarray body (dashDelim boundary) s = some partStart →
      (body.getD (partStart + (dashDelim boundary).length) 0 == 45 &&
        body.getD (partStart + (dashDelim boundary).length + 1) 0 == 45) = false →
      indexOfSubarray body headerEndMarker
        (skipCRLF body (partStart + (dashDelim boundary).length)) = none →
      extractAllAux body boundary s (fuel + 1) = []) := by
  refine ⟨?_,
    fun body boundary s partStart headersEnd hd hh => allAux_cursor body boundary hd hh,
    allAux_noDelim, allAux_closing, allAux_noHem⟩
  intro body boundary fuel hfuel
  exact allAux_fuel body boundary fuel (body.length + 1) 0 (by omega) (by omega)

/-- C9: case-sensitivity discrepancy — in a body whose header spells
`NAME="SERIALNUMBER"` in upper case, the all-parts pass (case-insensitive
attribute regex) reports the part under field name `SERIALNUMBER`, while
the named extractors' case-sensitive byte needle `name="SERIALNUMBER"`
does not occur, so `extractMultipartTextField` returns the empty string. -/
theorem C9_case_mismatch :
    extractAllMultipartFileParts c9Body demoB =
      [⟨ascii ("SERIALNUMBER"), ascii ("s.bin"), ascii ("hello")⟩] ∧
    indexOfSubarray c9Body (nameNeedle (ascii ("SERIALNUMBER"))) 0 = none ∧
    extractMultipartTextField c9Body demoB (ascii ("SERIALNUMBER")) = [] := by decide

/-- C10: filename/field-name confusion — `name="LOGFILE"` occurs in
`c10Body` only as a suffix of `filename="LOGFILE"`; the only part's field
name is `OTHER` (as the all-parts pass reports), yet
`extractMultipartFilePart` called with `LOGFILE` locates the part through
its filename attribute and returns it instead of `none`. -/
theorem C10_filename_as_name :
    extractAllMultipartFileParts c10Body demoB =
      [⟨ascii ("OTHER"), ascii ("LOGFILE"), ascii ("xyz")⟩] ∧
    ascii ("OTHER") ≠ ascii ("LOGFILE") ∧
    extractMultipartFilePart c10Body demoB (ascii ("LOGFILE")) =
      some ⟨ascii ("LOGFILE"), ascii ("xyz")⟩ := by decide
